import Mathlib

/-!
# ProtoMesh registry: insertion order and head materialisation

A shallow embedding of `src/src/Registry/RegistryAddition.cpp`
(`Registry::updateHead`, `Registry::addEntry`, `Registry::addSerializedEntry`)
together with the properties of the replicated signed registry.

Conventions of the embedding

* `vector<T>` is `List T`, `uint8_t` sequences are `List Nat`.
* `Result<bool, RegistryModificationError>` is `Except RegistryModificationError Bool`;
  the human readable text of an error is dropped.
* The collaborators that the registry reaches through `this->api` and through the
  embedded script engine (hashing, signature verification, the validator script) are
  fields of `Api`.
* The persistence performed when `save` is set and the listener callbacks have no
  influence on `entries`, `hashChain`, `headState` or the returned result; they are
  not part of the state.
-/

namespace ProtoMesh

/-! ## Data model -/

/-- Modelled from the spec: `Crypto::UUID` (declared in `crypto/crypto.hpp`, which is not
part of the sources at hand) is a 128 bit identifier with equality and a strict total
order; it is represented by its numeric value. -/
abbrev UUID := Nat

/-- Modelled from the spec: `Crypto::UUID::Empty()`, the identifier that marks a root
entry ("`parent_uuid` (or Empty for root)"); the all-zero identifier. -/
def UUID.Empty : UUID := 0

/-- The enumeration `RegistryEntryType`. -/
inductive RegistryEntryType where
  | UPSERT
  | DELETE
  deriving DecidableEq, Repr

/-- The fields of `RegistryEntry<vector<uint8_t>>` that the registry reads. -/
structure RegistryEntry where
  uuid : UUID
  parentUUID : UUID
  type : RegistryEntryType
  key : String
  value : List Nat
  publicKeyUsed : List Nat
  signature : List Nat
  deriving DecidableEq, Repr

/-- The enumeration `RegistryModificationError::Kind`. -/
inductive RegistryModificationError where
  | AlreadyPresent
  | PermissionDenied
  | SignatureVerificationFailed
  | ParsingError
  deriving DecidableEq, Repr

/-- Collaborators of the registry: `Crypto::hash::sha512Vec`,
`RegistryEntry::getSignatureContent`, `RegistryEntry::verifySignature` against the keys
of the registry, and `Registry::validateEntries` for the validator of the registry (one
boolean per entry on success, fewer when the script fails). -/
structure Api where
  sha512Vec : List Nat → List Nat
  getSignatureContent : RegistryEntry → List Nat
  verifySignature : RegistryEntry → Bool
  validateEntries : List RegistryEntry → List Bool

/-! ## `map<string, VALUE_T>` -/

/-- The head state `map<string, vector<uint8_t>>`: bindings in ascending key order. -/
abbrev HeadState := List (String × List Nat)

/-- Lookup of a key (`map::find`). -/
def HeadState.get (m : HeadState) (k : String) : Option (List Nat) :=
  m.lookup k

/-- Insertion of a binding at its place in key order. -/
def HeadState.insertSorted (k : String) (v : List Nat) : HeadState → HeadState
  | [] => [(k, v)]
  | (k', v') :: rest =>
    if k < k' then (k, v) :: (k', v') :: rest
    else (k', v') :: HeadState.insertSorted k v rest

/-- The call `map::emplace(key, value)`: inserts the binding when the key is absent and
leaves the map untouched when the key is present. -/
def HeadState.emplace (m : HeadState) (k : String) (v : List Nat) : HeadState :=
  if (m.lookup k).isSome then m else HeadState.insertSorted k v m

/-- The call `map::erase(key)`. -/
def HeadState.erase (m : HeadState) (k : String) : HeadState :=
  m.filter (fun kv => kv.1 != k)

/-! ## The registry -/

/-- The members of `Registry` that `addEntry` and `updateHead` write. -/
structure Registry where
  entries : List RegistryEntry
  hashChain : List (List Nat)
  headState : HeadState
  deriving DecidableEq, Repr

/-- A freshly created registry. -/
def Registry.empty : Registry := ⟨[], [], []⟩

/-! ## `Registry::updateHead` -/

/-- The locals of `updateHead` that live across iterations of its loop, together with
the two members it rebuilds. -/
structure HeadLoop where
  headState : HeadState
  hashChain : List (List Nat)
  lastHash : List Nat
  isError : Bool
  errorKind : RegistryModificationError

/-- The expression `entryIndex < validationResults.size() && validationResults[entryIndex]`. -/
def permittedAt (validationResults : List Bool) (entryIndex : Nat) : Bool :=
  decide (entryIndex < validationResults.length) && validationResults.getD entryIndex false

/-- The body and iteration of `for (auto &entry : entries)` in `updateHead`, started at
`entryIndex`. -/
def updateHeadLoop (api : Api) (validationResults : List Bool) (resultIndex : Nat) :
    List RegistryEntry → Nat → HeadLoop → HeadLoop
  | [], _, s => s
  | entry :: rest, entryIndex, s =>
    let sigContent := api.getSignatureContent entry ++ s.lastHash
    let lastHash := api.sha512Vec sigContent
    let s := { s with lastHash := lastHash, hashChain := s.hashChain ++ [lastHash] }
    let permitted := permittedAt validationResults entryIndex
    let signatureValid := api.verifySignature entry
    if !permitted || !signatureValid then
      let s :=
        if entryIndex = resultIndex then
          let s := if !permitted then
            { s with isError := true, errorKind := RegistryModificationError.PermissionDenied }
            else s
          if !signatureValid then
            { s with isError := true,
                     errorKind := RegistryModificationError.SignatureVerificationFailed }
          else s
        else s
      updateHeadLoop api validationResults resultIndex rest (entryIndex + 1) s
    else
      let s := match entry.type with
        | RegistryEntryType.UPSERT =>
          { s with headState := s.headState.emplace entry.key entry.value }
        | RegistryEntryType.DELETE =>
          { s with headState := s.headState.erase entry.key }
      updateHeadLoop api validationResults resultIndex rest (entryIndex + 1) s

/-- The function `updateHead` for a given vector of validation results: clears
`headState` and `hashChain`, replays the log and reports whether the entry at
`resultIndex` was rejected. -/
def updateHeadWith (api : Api) (validationResults : List Bool) (resultIndex : Nat)
    (r : Registry) : Except RegistryModificationError Bool × Registry :=
  let s := updateHeadLoop api validationResults resultIndex r.entries 0
    ⟨[], [], [], false, RegistryModificationError.PermissionDenied⟩
  let r := { r with headState := s.headState, hashChain := s.hashChain }
  if s.isError then (Except.error s.errorKind, r) else (Except.ok true, r)

/-- The function `Registry::updateHead(save, resultIndex)`: the validation results are
those of `validateEntries` on the current log. -/
def updateHead (api : Api) (resultIndex : Nat) (r : Registry) :
    Except RegistryModificationError Bool × Registry :=
  updateHeadWith api (api.validateEntries r.entries) resultIndex r

/-! ## `Registry::addEntry` -/

/-- What the backward scan of `addEntry` decides: insert at an index and return the
result of `insertAt` (`returned = true`, the `return insertAt(..)` statements) or drop it
and return `Ok(true)` (`returned = false`, the statements after the loop), or reject a
duplicate. -/
inductive ScanOutcome where
  | insertAt (index : Nat) (returned : Bool)
  | alreadyPresent
  deriving DecidableEq, Repr

/-- The loop `for (unsigned long i = entries.size(); i-- > 0;)` of `addEntry` with `i`
entries still to visit and the current `lastBorder`, followed by the statements after
the loop. -/
def addEntryScan (newEntry : RegistryEntry) (entries : List RegistryEntry) :
    (i : Nat) → i ≤ entries.length → Nat → ScanOutcome
  | 0, _, lastBorder =>
    if newEntry.parentUUID = UUID.Empty then ScanOutcome.insertAt 0 false
    else ScanOutcome.insertAt lastBorder false
  | i + 1, h, lastBorder =>
    let entry := entries.get ⟨i, h⟩
    if entry.uuid = newEntry.parentUUID then ScanOutcome.insertAt (i + 1) true
    else if entry.parentUUID = newEntry.parentUUID then
      if newEntry.uuid < entry.uuid then addEntryScan newEntry entries i (Nat.le_of_succ_le h) i
      else if newEntry.uuid > entry.uuid then ScanOutcome.insertAt lastBorder true
      else ScanOutcome.alreadyPresent
    else addEntryScan newEntry entries i (Nat.le_of_succ_le h) lastBorder

/-- The lambda `insertAt` of `addEntry`: `entries.insert(entries.begin() + index, newEntry)`
followed by `updateHead(save, index)`. -/
def insertAt (api : Api) (newEntry : RegistryEntry) (r : Registry) (index : Nat) :
    Except RegistryModificationError Bool × Registry :=
  updateHead api index
    { r with entries := r.entries.take index ++ newEntry :: r.entries.drop index }

/-- The function `Registry::addEntry(newEntry, save)`. -/
def addEntry (api : Api) (newEntry : RegistryEntry) (r : Registry) :
    Except RegistryModificationError Bool × Registry :=
  match addEntryScan newEntry r.entries r.entries.length (Nat.le_refl _) r.entries.length with
  | ScanOutcome.insertAt index true => insertAt api newEntry r index
  | ScanOutcome.insertAt index false => (Except.ok true, (insertAt api newEntry r index).2)
  | ScanOutcome.alreadyPresent => (Except.error RegistryModificationError.AlreadyPresent, r)

/-- Successive `addEntry` calls, results dropped. -/
def addEntriesInOrder (api : Api) (newEntries : List RegistryEntry) (r : Registry) : Registry :=
  newEntries.foldl (fun r e => (addEntry api e r).2) r

/-- The function `Registry::addSerializedEntry(serialized, save)`; `fromBuffer` is
`RegistryEntry::fromBuffer`, which is declared in `RegistryEntry.hpp`. -/
def addSerializedEntry {Serialized : Type} (api : Api)
    (fromBuffer : Serialized → Except String RegistryEntry) (serialized : Serialized)
    (r : Registry) : Except RegistryModificationError Bool × Registry :=
  match fromBuffer serialized with
  | Except.ok entry => addEntry api entry r
  | Except.error _ => (Except.error RegistryModificationError.ParsingError, r)

/-! ## Concrete inputs -/

/-- An `Api` that trusts every signature and permits every entry; the hash is the
identity on its input. -/
def Api.trustAll : Api where
  sha512Vec := fun bytes => bytes
  getSignatureContent := fun e => [e.uuid, e.parentUUID]
  verifySignature := fun _ => true
  validateEntries := fun es => es.map (fun _ => true)

/-- An upsert entry with the given identifiers, key and value. -/
def mkUpsert (uuid parentUUID : UUID) (key : String) (value : List Nat) : RegistryEntry :=
  ⟨uuid, parentUUID, RegistryEntryType.UPSERT, key, value, [], []⟩

/-- A delete entry with the given identifiers and key. -/
def mkDelete (uuid parentUUID : UUID) (key : String) : RegistryEntry :=
  ⟨uuid, parentUUID, RegistryEntryType.DELETE, key, [], [], []⟩

/-! ## Reachable registries -/

/-- Registries reached from the empty registry by a sequence of `addEntry` calls. -/
inductive Reachable (api : Api) : Registry → Prop where
  | empty : Reachable api Registry.empty
  | add (r : Registry) (e : RegistryEntry) :
      Reachable api r → Reachable api (addEntry api e r).2

/-- The parent of `e` is resolvable in the log `es`: it is `Empty` or the uuid of an
entry of `es`. -/
def ParentResolvable (e : RegistryEntry) (es : List RegistryEntry) : Prop :=
  e.parentUUID = UUID.Empty ∨ ∃ p ∈ es, p.uuid = e.parentUUID

/-- Registries reached from the empty registry by `addEntry` calls each of which passes
an entry whose parent is resolvable in the log of that moment. -/
inductive OrphanFreeReachable (api : Api) : Registry → Prop where
  | empty : OrphanFreeReachable api Registry.empty
  | add (r : Registry) (e : RegistryEntry) :
      OrphanFreeReachable api r → ParentResolvable e r.entries →
      OrphanFreeReachable api (addEntry api e r).2

/-- Registries reached from the empty registry by `addEntry` calls each of which passes
an entry whose parent is resolvable in the log of that moment, whose uuid is not `Empty`
and whose uuid is not the uuid of an entry of that log. -/
inductive FreshOrphanFreeReachable (api : Api) : Registry → Prop where
  | empty : FreshOrphanFreeReachable api Registry.empty
  | add (r : Registry) (e : RegistryEntry) :
      FreshOrphanFreeReachable api r → ParentResolvable e r.entries →
      e.uuid ≠ UUID.Empty → (∀ x ∈ r.entries, x.uuid ≠ e.uuid) →
      FreshOrphanFreeReachable api (addEntry api e r).2

/-! ## Devices of the proofs -/

/-- The backward scan of `addEntry` as a recursion over the entries still to visit,
last one first. -/
def scanRev (newEntry : RegistryEntry) : List RegistryEntry → Nat → ScanOutcome
  | [], lastBorder =>
    if newEntry.parentUUID = UUID.Empty then ScanOutcome.insertAt 0 false
    else ScanOutcome.insertAt lastBorder false
  | entry :: rest, lastBorder =>
    if entry.uuid = newEntry.parentUUID then ScanOutcome.insertAt (rest.length + 1) true
    else if entry.parentUUID = newEntry.parentUUID then
      if newEntry.uuid < entry.uuid then scanRev newEntry rest rest.length
      else if newEntry.uuid > entry.uuid then ScanOutcome.insertAt lastBorder true
      else ScanOutcome.alreadyPresent
    else scanRev newEntry rest lastBorder

/-- Every entry of the list names as parent `Empty`, a uuid of `seen`, or the uuid of an
entry before it in the list. -/
def ParentsBefore : List UUID → List RegistryEntry → Prop
  | _, [] => True
  | seen, x :: xs =>
    (x.parentUUID = UUID.Empty ∨ x.parentUUID ∈ seen) ∧ ParentsBefore (x.uuid :: seen) xs

/-- Entries that share a parent stand in strictly ascending uuid order. -/
def SiblingsAscending (es : List RegistryEntry) : Prop :=
  es.Pairwise (fun a b => a.parentUUID = b.parentUUID → a.uuid < b.uuid)

/-- The log invariant kept by orphan-free insertion of fresh uuids: parents stand before
their children, siblings ascend, uuids are pairwise distinct and none is `Empty`. -/
structure WellFormedLog (es : List RegistryEntry) : Prop where
  parents : ParentsBefore [] es
  siblings : SiblingsAscending es
  distinct : es.Pairwise (fun a b => a.uuid ≠ b.uuid)
  nonEmpty : ∀ x ∈ es, x.uuid ≠ UUID.Empty

/-- The log that `addEntry` leaves: a function of the old log and the new entry alone. -/
def logAfterAdd (newEntry : RegistryEntry) (entries : List RegistryEntry) : List RegistryEntry :=
  match addEntryScan newEntry entries entries.length (Nat.le_refl _) entries.length with
  | ScanOutcome.insertAt index _ => entries.take index ++ newEntry :: entries.drop index
  | ScanOutcome.alreadyPresent => entries

/-- The effect of one iteration of the loop of `updateHead` on `headState`. -/
def stepHead (api : Api) (validationResults : List Bool) (entryIndex : Nat)
    (entry : RegistryEntry) (h : HeadState) : HeadState :=
  if permittedAt validationResults entryIndex && api.verifySignature entry then
    match entry.type with
    | RegistryEntryType.UPSERT => h.emplace entry.key entry.value
    | RegistryEntryType.DELETE => h.erase entry.key
  else h

/-- The `headState` component of the loop of `updateHead`. -/
def replayHead (api : Api) (validationResults : List Bool) :
    List RegistryEntry → Nat → HeadState → HeadState
  | [], _, h => h
  | entry :: rest, entryIndex, h =>
    replayHead api validationResults rest (entryIndex + 1)
      (stepHead api validationResults entryIndex entry h)

/-! ## The canonical order of the specification -/

/-- The entries of `es` whose parent is `parent`, in ascending uuid order ("siblings
(entries sharing the same `parent_uuid`) are ordered by ascending `uuid`"). -/
def siblingsOf (es : List RegistryEntry) (parent : UUID) : List RegistryEntry :=
  (es.filter (fun e => e.parentUUID = parent)).insertionSort (fun a b => a.uuid ≤ b.uuid)

/-- Pre-order traversal of the subtrees below `parent`, at most `depth` levels deep:
each child in sibling order, followed by the traversal below it. -/
def preorderBelow (es : List RegistryEntry) : Nat → UUID → List RegistryEntry
  | 0, _ => []
  | depth + 1, parent =>
    (siblingsOf es parent).foldr (fun c acc => c :: (preorderBelow es depth c.uuid ++ acc)) []

/-- The canonical total order of a set of entries: "a pre-order traversal" of the tree
"rooted at `Empty`"; a tree of `n` entries has at most `n` levels. -/
def canonicalOrder (es : List RegistryEntry) : List RegistryEntry :=
  preorderBelow es es.length UUID.Empty

/-- An `Api` that accepts no signature. -/
def Api.trustNone : Api where
  sha512Vec := fun bytes => bytes
  getSignatureContent := fun e => [e.uuid, e.parentUUID]
  verifySignature := fun _ => false
  validateEntries := fun es => es.map (fun _ => true)

/-! ## `Registry::addEntries` -/

/-- The inner `while (it != newEntries.end())` of the first loop of `addEntries` for one
entry of the registry: an element whose parent is that entry or `Empty` moves to
`pendingAdditions`, an element with the uuid of that entry is erased, the others stay.
The result is `(newEntries, pendingAdditions)`. -/
def sweepFor (entry : RegistryEntry) :
    List RegistryEntry → List RegistryEntry → List RegistryEntry × List RegistryEntry
  | [], pendingAdditions => ([], pendingAdditions)
  | it :: rest, pendingAdditions =>
    if it.parentUUID = entry.uuid ∨ it.parentUUID = UUID.Empty then
      sweepFor entry rest (pendingAdditions ++ [it])
    else if it.uuid = entry.uuid then sweepFor entry rest pendingAdditions
    else
      let res := sweepFor entry rest pendingAdditions
      (it :: res.1, res.2)

/-- The loop `for (size_t ei = startingIndex; ei < entries.size(); ei++)` of `addEntries`
over the registry entries it visits. The result is `(newEntries, pendingAdditions)`. -/
def collectPending :
    List RegistryEntry → List RegistryEntry → List RegistryEntry →
      List RegistryEntry × List RegistryEntry
  | [], newEntries, pendingAdditions => (newEntries, pendingAdditions)
  | entry :: more, newEntries, pendingAdditions =>
    let res := sweepFor entry newEntries pendingAdditions
    collectPending more res.1 res.2

/-- The search "for entries with a missing parent" of `addEntries`: `kept` are the
elements the iterator has passed and left in `newEntries`, `rest` starts at the iterator.
`hasParent` looks through the whole current `newEntries` and through `pendingAdditions`.
The result is `(newEntries, pendingAdditions)`. -/
def hangingSweep :
    List RegistryEntry → List RegistryEntry → List RegistryEntry →
      List RegistryEntry × List RegistryEntry
  | kept, [], pendingAdditions => (kept, pendingAdditions)
  | kept, it :: rest, pendingAdditions =>
    let hasParent :=
      (kept ++ it :: rest).any (fun entry => decide (entry.uuid = it.parentUUID)) ||
        pendingAdditions.any (fun entry => decide (entry.uuid = it.parentUUID))
    if !hasParent then hangingSweep kept rest (pendingAdditions ++ [it])
    else hangingSweep (kept ++ [it]) rest pendingAdditions

/-- The loop `while (newEntries.size() > 0)` of `addEntries`, run for at most `fuel`
iterations; `none` when the pending list is still not empty after that many. -/
def addEntriesLoop (api : Api) (startingIndex : Nat) :
    Nat → List RegistryEntry → Nat → Registry → Option Registry
  | 0, newEntries, _, r => if newEntries.length > 0 then none else some r
  | fuel + 1, newEntries, prevSize, r =>
    if newEntries.length > 0 then
      let found := collectPending (r.entries.drop startingIndex) newEntries []
      let newEntries := found.1
      let pendingAdditions := found.2
      let r := addEntriesInOrder api pendingAdditions r
      if prevSize = newEntries.length then
        let hanging := hangingSweep [] newEntries pendingAdditions
        let newEntries := hanging.1
        let pendingAdditions := hanging.2
        let r := addEntriesInOrder api pendingAdditions r
        addEntriesLoop api startingIndex fuel newEntries newEntries.length r
      else addEntriesLoop api startingIndex fuel newEntries newEntries.length r
    else some r

/-- The function `Registry::addEntries(newEntries, startingIndex, save)`, run for at most
`fuel` iterations of its loop. -/
def addEntries (api : Api) (newEntries : List RegistryEntry) (startingIndex : Nat)
    (r : Registry) (fuel : Nat) : Option Registry :=
  addEntriesLoop api startingIndex fuel newEntries newEntries.length r

/-- The chain of parents of an entry reaches `Empty` or an entry of the log, through
entries of the list. -/
inductive Resolvable (log list : List RegistryEntry) : RegistryEntry → Prop where
  | root (e : RegistryEntry) : e.parentUUID = UUID.Empty → Resolvable log list e
  | inLog (e p : RegistryEntry) : p ∈ log → p.uuid = e.parentUUID → Resolvable log list e
  | inList (e p : RegistryEntry) :
      p ∈ list → p.uuid = e.parentUUID → Resolvable log list p → Resolvable log list e

/-- The list holds no parent cycle: every non-empty part of it has an entry whose
parentUUID is not the uuid of an entry of that part (so no entries name each other, or
themselves, as parent, directly or through a chain). -/
def NoParentCycle (list : List RegistryEntry) : Prop :=
  ∀ part : List RegistryEntry, part ≠ [] → (∀ y ∈ part, y ∈ list) →
    ∃ x ∈ part, ∀ y ∈ part, y.uuid ≠ x.parentUUID

/-! ## Devices for the hash chain and the result of `updateHead` -/

/-- The `hashChain` component of the loop of `updateHead`, started with `lastHash`. -/
def chainFrom (api : Api) : List RegistryEntry → List Nat → List (List Nat)
  | [], _ => []
  | entry :: rest, lastHash =>
    api.sha512Vec (api.getSignatureContent entry ++ lastHash) ::
      chainFrom api rest (api.sha512Vec (api.getSignatureContent entry ++ lastHash))

/-- The answer of `updateHead(save, resultIndex)` in the words of its description, a
function of the entry at `resultIndex` alone: `Ok(true)` when no entry is addressed or
the addressed entry passes both checks, `SignatureVerificationFailed` when its signature
is invalid, `PermissionDenied` when only the permission fails. -/
def resultFor (api : Api) (validationResults : List Bool) (resultIndex : Nat)
    (entries : List RegistryEntry) : Except RegistryModificationError Bool :=
  match entries[resultIndex]? with
  | none => Except.ok true
  | some entry =>
    if api.verifySignature entry = false then
      Except.error RegistryModificationError.SignatureVerificationFailed
    else if permittedAt validationResults resultIndex = false then
      Except.error RegistryModificationError.PermissionDenied
    else Except.ok true

/-- The effect of one iteration of the loop of `updateHead` on the pair
`(isError, errorKind)`. -/
def stepError (api : Api) (validationResults : List Bool) (resultIndex entryIndex : Nat)
    (entry : RegistryEntry) (err : Bool × RegistryModificationError) :
    Bool × RegistryModificationError :=
  if entryIndex = resultIndex then
    if api.verifySignature entry = false then
      (true, RegistryModificationError.SignatureVerificationFailed)
    else if permittedAt validationResults entryIndex = false then
      (true, RegistryModificationError.PermissionDenied)
    else err
  else err

/-- The `(isError, errorKind)` component of the loop of `updateHead`. -/
def replayError (api : Api) (validationResults : List Bool) (resultIndex : Nat) :
    List RegistryEntry → Nat → Bool × RegistryModificationError →
      Bool × RegistryModificationError
  | [], _, err => err
  | entry :: rest, entryIndex, err =>
    replayError api validationResults resultIndex rest (entryIndex + 1)
      (stepError api validationResults resultIndex entryIndex entry err)

/-- A code of byte strings as numbers, one number for each string. -/
def encodeBytes : List Nat → Nat
  | [] => 0
  | b :: rest => Nat.pair b (encodeBytes rest) + 1

/-- An `Api` whose hash is injective with outputs of length one: the hash of a byte
string is its code. The signed bytes of an entry are its uuid, its parentUUID and its
value. -/
def Api.encodingHash : Api where
  sha512Vec := fun bytes => [encodeBytes bytes]
  getSignatureContent := fun e => e.uuid :: e.parentUUID :: e.value
  verifySignature := fun _ => true
  validateEntries := fun es => es.map (fun _ => true)

/-- Registries reached from the empty registry by `addEntry` calls each of which passes
an entry whose parent is resolvable in the log of that moment and whose uuid is not the
uuid of an entry of that log. -/
inductive DistinctOrphanFreeReachable (api : Api) : Registry → Prop where
  | empty : DistinctOrphanFreeReachable api Registry.empty
  | add (r : Registry) (e : RegistryEntry) :
      DistinctOrphanFreeReachable api r → ParentResolvable e r.entries →
      (∀ x ∈ r.entries, x.uuid ≠ e.uuid) →
      DistinctOrphanFreeReachable api (addEntry api e r).2

/-! ## The backward scan -/

theorem addEntryScan_eq_scanRev (e : RegistryEntry) (es : List RegistryEntry) :
    ∀ (i : Nat) (h : i ≤ es.length) (lb : Nat),
      addEntryScan e es i h lb = scanRev e (es.take i).reverse lb := by
  intro i
  induction i with
  | zero => intro h lb; simp [addEntryScan, scanRev]
  | succ i ih =>
    intro h lb
    have hi : i < es.length := h
    have ht : (es.take (i + 1)).reverse = es.get ⟨i, hi⟩ :: (es.take i).reverse := by
      rw [List.take_succ]
      simp [List.getElem?_eq_getElem hi]
    have hl : (es.take i).length = i := by simp; omega
    rw [ht]
    simp only [addEntryScan, scanRev, ih, List.length_reverse, hl]

theorem addEntryScan_full (e : RegistryEntry) (es : List RegistryEntry) :
    addEntryScan e es es.length (Nat.le_refl _) es.length = scanRev e es.reverse es.length := by
  rw [addEntryScan_eq_scanRev]; simp

/-- Where the backward scan inserts: the log splits at the insertion index into `pre`
and `suf`; behind the index every sibling has a larger uuid and nothing is the parent;
before it the scan stopped at the parent, stopped at a smaller sibling, or ran to the
front of the log. -/
theorem scanRev_spec (e : RegistryEntry) :
    ∀ (rs t1 t2 : List RegistryEntry) (lb idx : Nat) (b : Bool),
      lb = rs.length + t1.length →
      (∀ s ∈ t1, s.parentUUID ≠ e.parentUUID) →
      (∀ s ∈ t1 ++ t2, s.parentUUID = e.parentUUID → e.uuid < s.uuid) →
      (∀ s ∈ t1 ++ t2, s.uuid ≠ e.parentUUID) →
      scanRev e rs lb = ScanOutcome.insertAt idx b →
      ∃ pre suf, rs.reverse ++ (t1 ++ t2) = pre ++ suf ∧ idx = pre.length ∧
        (∀ s ∈ suf, s.parentUUID = e.parentUUID → e.uuid < s.uuid) ∧
        (∀ s ∈ suf, s.uuid ≠ e.parentUUID) ∧
        ((b = true ∧ ∃ pre' p, pre = pre' ++ [p] ∧ p.uuid = e.parentUUID) ∨
         (b = true ∧ ∃ p1 s p2, pre = p1 ++ s :: p2 ∧ s.parentUUID = e.parentUUID ∧
            s.uuid < e.uuid ∧ ∀ x ∈ p2, x.parentUUID ≠ e.parentUUID) ∨
         (b = false ∧ (∀ x ∈ pre, x.uuid ≠ e.parentUUID) ∧
            (∀ x ∈ pre, x.parentUUID ≠ e.parentUUID) ∧
            (e.parentUUID = UUID.Empty → pre = []))) := by
  intro rs
  induction rs with
  | nil =>
    intro t1 t2 lb idx b hlb hns hbig hnp h
    simp only [scanRev] at h
    by_cases hE : e.parentUUID = UUID.Empty
    · rw [if_pos hE] at h
      injection h with h1 h2
      refine ⟨[], t1 ++ t2, by simp, by simp [← h1], hbig, hnp, Or.inr (Or.inr ?_)⟩
      exact ⟨h2.symm, by simp, by simp, fun _ => rfl⟩
    · rw [if_neg hE] at h
      injection h with h1 h2
      refine ⟨t1, t2, by simp, by simp [← h1, hlb], ?_, ?_, Or.inr (Or.inr ?_)⟩
      · intro s hs; exact hbig s (List.mem_append_right _ hs)
      · intro s hs; exact hnp s (List.mem_append_right _ hs)
      · exact ⟨h2.symm, fun x hx => hnp x (List.mem_append_left _ hx), hns,
          fun h0 => absurd h0 hE⟩
  | cons x rest ih =>
    intro t1 t2 lb idx b hlb hns hbig hnp h
    simp only [scanRev] at h
    by_cases hp : x.uuid = e.parentUUID
    · rw [if_pos hp] at h
      injection h with h1 h2
      refine ⟨rest.reverse ++ [x], t1 ++ t2, by simp, by simp [← h1], hbig, hnp, Or.inl ?_⟩
      exact ⟨h2.symm, rest.reverse, x, rfl, hp⟩
    · rw [if_neg hp] at h
      by_cases hs : x.parentUUID = e.parentUUID
      · rw [if_pos hs] at h
        by_cases hlt : e.uuid < x.uuid
        · rw [if_pos hlt] at h
          have := ih [] (x :: (t1 ++ t2)) rest.length idx b (by simp) (by simp)
            (by
              intro s hs'
              simp only [List.nil_append, List.mem_cons] at hs'
              rcases hs' with rfl | hs'
              · intro _; exact hlt
              · exact hbig s hs')
            (by
              intro s hs'
              simp only [List.nil_append, List.mem_cons] at hs'
              rcases hs' with rfl | hs'
              · exact hp
              · exact hnp s hs')
            h
          simpa using this
        · rw [if_neg hlt] at h
          by_cases hgt : e.uuid > x.uuid
          · rw [if_pos hgt] at h
            injection h with h1 h2
            refine ⟨rest.reverse ++ x :: t1, t2, by simp, ?_, ?_, ?_, Or.inr (Or.inl ?_)⟩
            · simp [← h1, hlb]; omega
            · intro s hs'; exact hbig s (List.mem_append_right _ hs')
            · intro s hs'; exact hnp s (List.mem_append_right _ hs')
            · exact ⟨h2.symm, rest.reverse, x, t1, rfl, hs, hgt, hns⟩
          · rw [if_neg hgt] at h
            exact absurd h (by simp)
      · rw [if_neg hs] at h
        have := ih (x :: t1) t2 lb idx b (by simp [hlb]; omega)
          (by
            intro s hs'
            simp only [List.mem_cons] at hs'
            rcases hs' with rfl | hs'
            · exact hs
            · exact hns s hs')
          (by
            intro s hs'
            simp only [List.cons_append, List.mem_cons] at hs'
            rcases hs' with rfl | hs'
            · intro h'; exact absurd h' hs
            · exact hbig s hs')
          (by
            intro s hs'
            simp only [List.cons_append, List.mem_cons] at hs'
            rcases hs' with rfl | hs'
            · exact hp
            · exact hnp s hs')
          h
        simpa using this

theorem addEntryScan_spec (e : RegistryEntry) (es : List RegistryEntry) (idx : Nat) (b : Bool)
    (h : addEntryScan e es es.length (Nat.le_refl _) es.length = ScanOutcome.insertAt idx b) :
    ∃ pre suf, es = pre ++ suf ∧ idx = pre.length ∧
      (∀ s ∈ suf, s.parentUUID = e.parentUUID → e.uuid < s.uuid) ∧
      (∀ s ∈ suf, s.uuid ≠ e.parentUUID) ∧
      ((b = true ∧ ∃ pre' p, pre = pre' ++ [p] ∧ p.uuid = e.parentUUID) ∨
       (b = true ∧ ∃ p1 s p2, pre = p1 ++ s :: p2 ∧ s.parentUUID = e.parentUUID ∧
          s.uuid < e.uuid ∧ ∀ x ∈ p2, x.parentUUID ≠ e.parentUUID) ∨
       (b = false ∧ (∀ x ∈ pre, x.uuid ≠ e.parentUUID) ∧
          (∀ x ∈ pre, x.parentUUID ≠ e.parentUUID) ∧
          (e.parentUUID = UUID.Empty → pre = []))) := by
  rw [addEntryScan_full] at h
  have := scanRev_spec e es.reverse [] [] es.length idx b (by simp) (by simp) (by simp)
    (by simp) h
  simpa using this

/-! ## What `addEntry` does to the log -/

theorem updateHeadWith_entries (api : Api) (vr : List Bool) (k : Nat) (r : Registry) :
    (updateHeadWith api vr k r).2.entries = r.entries := by
  unfold updateHeadWith
  simp only []
  split <;> rfl

theorem insertAt_entries (api : Api) (e : RegistryEntry) (r : Registry) (idx : Nat) :
    (insertAt api e r idx).2.entries = r.entries.take idx ++ e :: r.entries.drop idx := by
  simp [insertAt, updateHead, updateHeadWith_entries]

/-- The log after `addEntry`: unchanged, or the old log split in two with the new entry
in between. -/
theorem addEntry_entries_cases (api : Api) (e : RegistryEntry) (r : Registry) :
    (addEntry api e r).2.entries = r.entries ∨
    ∃ idx b, addEntryScan e r.entries r.entries.length (Nat.le_refl _) r.entries.length
        = ScanOutcome.insertAt idx b ∧
      (addEntry api e r).2.entries = r.entries.take idx ++ e :: r.entries.drop idx := by
  unfold addEntry
  split
  · next idx h => exact Or.inr ⟨idx, true, h, insertAt_entries api e r idx⟩
  · next idx h => exact Or.inr ⟨idx, false, h, insertAt_entries api e r idx⟩
  · exact Or.inl rfl

/-! ## Parents before children -/

theorem ParentsBefore.mono {seen seen' : List UUID} (hsub : ∀ u ∈ seen, u ∈ seen') :
    ∀ {l : List RegistryEntry}, ParentsBefore seen l → ParentsBefore seen' l := by
  intro l
  induction l generalizing seen seen' with
  | nil => intro _; trivial
  | cons x xs ih =>
    intro h
    refine ⟨h.1.imp id (hsub _), ih ?_ h.2⟩
    intro u hu
    simp only [List.mem_cons] at hu ⊢
    exact hu.imp id (hsub u)

theorem parentsBefore_append (seen : List UUID) (l1 l2 : List RegistryEntry) :
    ParentsBefore seen (l1 ++ l2) ↔
      ParentsBefore seen l1 ∧ ParentsBefore ((l1.map (fun x => x.uuid)).reverse ++ seen) l2 := by
  induction l1 generalizing seen with
  | nil => simp [ParentsBefore]
  | cons x xs ih =>
    have := ih (x.uuid :: seen)
    simp only [List.cons_append, ParentsBefore, List.map_cons, List.reverse_cons,
      List.append_assoc, List.singleton_append, and_assoc, List.append_eq, List.nil_append, this]

theorem ParentsBefore.mem {seen : List UUID} {l : List RegistryEntry}
    (h : ParentsBefore seen l) {s : RegistryEntry} (hs : s ∈ l) :
    s.parentUUID = UUID.Empty ∨ s.parentUUID ∈ seen ∨ ∃ q ∈ l, q.uuid = s.parentUUID := by
  induction l generalizing seen with
  | nil => simp at hs
  | cons x xs ih =>
    simp only [List.mem_cons] at hs
    rcases hs with rfl | hs
    · rcases h.1 with h0 | h1
      · exact Or.inl h0
      · exact Or.inr (Or.inl h1)
    · rcases ih h.2 hs with h0 | h1 | ⟨q, hq, hqe⟩
      · exact Or.inl h0
      · simp only [List.mem_cons] at h1
        rcases h1 with h1 | h1
        · exact Or.inr (Or.inr ⟨x, by simp, h1.symm⟩)
        · exact Or.inr (Or.inl h1)
      · exact Or.inr (Or.inr ⟨q, by simp [hq], hqe⟩)

theorem ParentsBefore.getElem? {seen : List UUID} {l : List RegistryEntry}
    (h : ParentsBefore seen l) {i : Nat} {e : RegistryEntry} (hi : l[i]? = some e) :
    e.parentUUID = UUID.Empty ∨ e.parentUUID ∈ seen ∨
      ∃ j p, j < i ∧ l[j]? = some p ∧ p.uuid = e.parentUUID := by
  induction l generalizing seen i with
  | nil => simp at hi
  | cons x xs ih =>
    cases i with
    | zero =>
      simp only [List.getElem?_cons_zero, Option.some.injEq] at hi
      subst hi
      rcases h.1 with h0 | h1
      · exact Or.inl h0
      · exact Or.inr (Or.inl h1)
    | succ i =>
      simp only [List.getElem?_cons_succ] at hi
      rcases ih h.2 hi with h0 | h1 | ⟨j, p, hj, hp, hpe⟩
      · exact Or.inl h0
      · simp only [List.mem_cons] at h1
        rcases h1 with h1 | h1
        · exact Or.inr (Or.inr ⟨0, x, by omega, by simp, h1.symm⟩)
        · exact Or.inr (Or.inl h1)
      · exact Or.inr (Or.inr ⟨j + 1, p, by omega, by simpa using hp, hpe⟩)

/-- Inserting an entry whose parent is resolvable keeps parents before children. -/
theorem parentsBefore_addEntry (api : Api) (e : RegistryEntry) (r : Registry)
    (hres : ParentResolvable e r.entries) (h : ParentsBefore [] r.entries) :
    ParentsBefore [] (addEntry api e r).2.entries := by
  rcases addEntry_entries_cases api e r with hsame | ⟨idx, b, hscan, hnew⟩
  · rw [hsame]; exact h
  · obtain ⟨pre, suf, hes, hidx, -, hsufp, hcase⟩ := addEntryScan_spec e r.entries idx b hscan
    rw [hnew, hes, hidx, List.take_left, List.drop_left]
    rw [hes, parentsBefore_append] at h
    obtain ⟨hpre, hsuf⟩ := h
    rw [parentsBefore_append]
    refine ⟨hpre, ?_, ?_⟩
    · simp only [List.append_nil, List.mem_reverse, List.mem_map]
      rcases hcase with ⟨-, pre', p, hp, hpe⟩ | ⟨-, p1, s, p2, hp, hs, -, -⟩ | ⟨-, hnp, -, -⟩
      · exact Or.inr ⟨p, by simp [hp], hpe⟩
      · have hs' : s ∈ pre := by simp [hp]
        rcases hpre.mem hs' with h0 | h1 | ⟨q, hq, hqe⟩
        · exact Or.inl (hs ▸ h0)
        · simp at h1
        · exact Or.inr ⟨q, hq, hs ▸ hqe⟩
      · rcases hres with h0 | ⟨p, hp, hpe⟩
        · exact Or.inl h0
        · rw [hes, List.mem_append] at hp
          rcases hp with hp | hp
          · exact absurd hpe (hnp p hp)
          · exact absurd hpe (hsufp p hp)
    · refine ParentsBefore.mono ?_ hsuf
      intro u hu
      simp only [List.mem_cons]
      exact Or.inr hu

/-! ## Siblings in ascending order -/

/-- In a well-formed log no child of an entry stands at or before that entry. -/
theorem WellFormedLog.no_child_before {pre' suf : List RegistryEntry} {p : RegistryEntry}
    (h : WellFormedLog (pre' ++ [p] ++ suf)) :
    ∀ a ∈ pre' ++ [p], a.parentUUID ≠ p.uuid := by
  have hpne : p.uuid ≠ UUID.Empty := h.nonEmpty p (by simp)
  have hdist : ∀ q ∈ pre', q.uuid ≠ p.uuid := by
    have hd := h.distinct
    rw [List.append_assoc, List.pairwise_append] at hd
    intro q hq
    exact hd.2.2 q hq p (by simp)
  have hpb := h.parents
  rw [List.append_assoc, parentsBefore_append] at hpb
  obtain ⟨hpb1, hpb2⟩ := hpb
  intro a ha hap
  simp only [List.mem_append, List.mem_singleton] at ha
  rcases ha with ha | rfl
  · rcases hpb1.mem ha with h0 | h1 | ⟨q, hq, hqe⟩
    · exact hpne (hap ▸ h0)
    · simp at h1
    · exact hdist q hq (hqe.trans hap)
  · have := hpb2.1
    simp only [List.append_nil, List.mem_reverse, List.mem_map] at this
    rcases this with h0 | ⟨q, hq, hqe⟩
    · exact hpne (hap ▸ h0)
    · exact hdist q hq (hqe.trans hap)

theorem siblingsAscending_insert {pre suf : List RegistryEntry} {e : RegistryEntry}
    (h : SiblingsAscending (pre ++ suf))
    (hpre : ∀ a ∈ pre, a.parentUUID = e.parentUUID → a.uuid < e.uuid)
    (hsuf : ∀ b ∈ suf, b.parentUUID = e.parentUUID → e.uuid < b.uuid) :
    SiblingsAscending (pre ++ e :: suf) := by
  unfold SiblingsAscending at h ⊢
  rw [List.pairwise_append] at h ⊢
  obtain ⟨h1, h2, h3⟩ := h
  refine ⟨h1, List.pairwise_cons.mpr ⟨?_, h2⟩, ?_⟩
  · intro b hb hp; exact hsuf b hb hp.symm
  · intro a ha b hb
    simp only [List.mem_cons] at hb
    rcases hb with rfl | hb
    · exact hpre a ha
    · exact h3 a ha b hb

/-- Orphan-free insertion of a fresh, non-`Empty` uuid keeps the log well formed. -/
theorem wellFormedLog_addEntry (api : Api) (e : RegistryEntry) (r : Registry)
    (hres : ParentResolvable e r.entries) (hne : e.uuid ≠ UUID.Empty)
    (hfresh : ∀ x ∈ r.entries, x.uuid ≠ e.uuid) (h : WellFormedLog r.entries) :
    WellFormedLog (addEntry api e r).2.entries := by
  have hpar := parentsBefore_addEntry api e r hres h.parents
  rcases addEntry_entries_cases api e r with hsame | ⟨idx, b, hscan, hnew⟩
  · rw [hsame]; exact h
  · obtain ⟨pre, suf, hes, hidx, hsufs, -, hcase⟩ := addEntryScan_spec e r.entries idx b hscan
    have hnew' : (addEntry api e r).2.entries = pre ++ e :: suf := by
      rw [hnew, hes, hidx, List.take_left, List.drop_left]
    refine ⟨hpar, ?_, ?_, ?_⟩
    · rw [hnew']
      refine siblingsAscending_insert (hes ▸ h.siblings) ?_ hsufs
      rcases hcase with ⟨-, pre', p, hp, hpe⟩ | ⟨-, p1, s, p2, hp, hs, hlt, hp2⟩ | ⟨-, -, hns, -⟩
      · intro a ha hap
        have hwf : WellFormedLog (pre' ++ [p] ++ suf) := by rw [← hp, ← hes]; exact h
        exact absurd (hap.trans hpe.symm) (hwf.no_child_before a (hp ▸ ha))
      · intro a ha hap
        rw [hp, List.mem_append, List.mem_cons] at ha
        rcases ha with ha | rfl | ha
        · have hsib := h.siblings
          unfold SiblingsAscending at hsib
          rw [hes, hp, List.append_assoc, List.pairwise_append] at hsib
          exact Nat.lt_trans (hsib.2.2 a ha s (by simp) (hap.trans hs.symm)) hlt
        · exact hlt
        · exact absurd hap (hp2 a ha)
      · intro a ha hap
        exact absurd hap (hns a ha)
    · rw [hnew']
      have hd := h.distinct
      rw [hes, List.pairwise_append] at hd
      rw [List.pairwise_append]
      refine ⟨hd.1, List.pairwise_cons.mpr ⟨?_, hd.2.1⟩, ?_⟩
      · intro b hb
        exact Ne.symm (hfresh b (by rw [hes]; exact List.mem_append_right _ hb))
      · intro a ha b hb
        simp only [List.mem_cons] at hb
        rcases hb with rfl | hb
        · exact hfresh a (by rw [hes]; exact List.mem_append_left _ ha)
        · exact hd.2.2 a ha b hb
    · intro x hx
      rw [hnew', List.mem_append, List.mem_cons] at hx
      rcases hx with hx | rfl | hx
      · exact h.nonEmpty x (by rw [hes]; exact List.mem_append_left _ hx)
      · exact hne
      · exact h.nonEmpty x (by rw [hes]; exact List.mem_append_right _ hx)

theorem wellFormedLog_nil : WellFormedLog [] :=
  ⟨trivial, List.Pairwise.nil, List.Pairwise.nil, by simp⟩

theorem FreshOrphanFreeReachable.wellFormed {api : Api} {r : Registry}
    (h : FreshOrphanFreeReachable api r) : WellFormedLog r.entries := by
  induction h with
  | empty => exact wellFormedLog_nil
  | add r e _ hres hne hfresh ih => exact wellFormedLog_addEntry api e r hres hne hfresh ih

theorem OrphanFreeReachable.parentsBefore {api : Api} {r : Registry}
    (h : OrphanFreeReachable api r) : ParentsBefore [] r.entries := by
  induction h with
  | empty => trivial
  | add r e _ hres ih => exact parentsBefore_addEntry api e r hres ih

theorem addEntry_entries (api : Api) (e : RegistryEntry) (r : Registry) :
    (addEntry api e r).2.entries = logAfterAdd e r.entries := by
  unfold addEntry logAfterAdd
  split
  · next idx h => rw [h]; exact insertAt_entries api e r idx
  · next idx h => rw [h]; exact insertAt_entries api e r idx
  · next h => rw [h]

theorem addEntriesInOrder_entries (api : Api) (es : List RegistryEntry) (r : Registry) :
    (addEntriesInOrder api es r).entries = es.foldl (fun l e => logAfterAdd e l) r.entries := by
  unfold addEntriesInOrder
  induction es generalizing r with
  | nil => rfl
  | cons e es ih => simp only [List.foldl_cons]; rw [ih, addEntry_entries]

/-- The statements after the loop of `addEntry` drop the result of `insertAt`: the first
entry of a registry is always answered with `Ok(true)`. -/
theorem addEntry_empty (api : Api) (e : RegistryEntry) :
    (addEntry api e Registry.empty).1 = Except.ok true ∧
      (addEntry api e Registry.empty).2.entries = [e] := by
  unfold addEntry
  simp only [Registry.empty, List.length_nil, addEntryScan, ite_self]
  exact ⟨trivial, insertAt_entries api e ⟨[], [], []⟩ 0⟩

theorem addEntry_of_alreadyPresent (api : Api) (e : RegistryEntry) (r : Registry)
    (h : addEntryScan e r.entries r.entries.length (Nat.le_refl _) r.entries.length
      = ScanOutcome.alreadyPresent) :
    addEntry api e r = (Except.error RegistryModificationError.AlreadyPresent, r) := by
  unfold addEntry
  split
  · next idx h' => rw [h] at h'; exact absurd h' (by simp)
  · next idx h' => rw [h] at h'; exact absurd h' (by simp)
  · rfl

/-! ## The head state as a replay of the log -/

theorem updateHeadLoop_headState (api : Api) (vr : List Bool) (k : Nat)
    (xs : List RegistryEntry) :
    ∀ (n : Nat) (s : HeadLoop),
      (updateHeadLoop api vr k xs n s).headState = replayHead api vr xs n s.headState := by
  induction xs with
  | nil => intro n s; rfl
  | cons e rest ih =>
    intro n s
    simp only [updateHeadLoop, replayHead, stepHead]
    cases hp : permittedAt vr n <;> cases hv : api.verifySignature e
    · rw [if_pos (by simp), ih]; simp only [Bool.and_self, Bool.false_eq_true, if_false]
      split_ifs <;> rfl
    · rw [if_pos (by simp), ih]; simp only [Bool.false_and, Bool.false_eq_true, if_false]
      split_ifs <;> rfl
    · rw [if_pos (by simp), ih]; simp only [Bool.and_false, Bool.false_eq_true, if_false]
      split_ifs <;> rfl
    · rw [if_neg (by simp), ih]; simp only [Bool.and_self, if_true]
      cases e.type <;> rfl

theorem updateHeadWith_headState (api : Api) (vr : List Bool) (k : Nat) (r : Registry) :
    (updateHeadWith api vr k r).2.headState = replayHead api vr r.entries 0 [] := by
  unfold updateHeadWith
  simp only []
  split <;> exact updateHeadLoop_headState api vr k r.entries 0 _

theorem replayHead_append (api : Api) (vr : List Bool) (xs ys : List RegistryEntry) :
    ∀ (n : Nat) (h : HeadState),
      replayHead api vr (xs ++ ys) n h
        = replayHead api vr ys (n + xs.length) (replayHead api vr xs n h) := by
  induction xs with
  | nil => intro n h; rfl
  | cons x xs ih =>
    intro n h
    simp only [List.cons_append, replayHead, List.length_cons, List.append_eq]
    rw [ih, show n + 1 + xs.length = n + (xs.length + 1) by omega]

/-- The replay depends on the validation results only through the verdicts at the
indices it visits. -/
theorem replayHead_congr (api : Api) (vr vr' : List Bool) (xs : List RegistryEntry) :
    ∀ (n n' : Nat) (h : HeadState),
      (∀ j, j < xs.length → permittedAt vr (n + j) = permittedAt vr' (n' + j)) →
      replayHead api vr xs n h = replayHead api vr' xs n' h := by
  induction xs with
  | nil => intro n n' h _; rfl
  | cons x xs ih =>
    intro n n' h hperm
    have h0 : permittedAt vr n = permittedAt vr' n' := by simpa using hperm 0 (by simp)
    simp only [replayHead, stepHead, h0]
    apply ih
    intro j hj
    have := hperm (j + 1) (by simp; omega)
    rw [show n + 1 + j = n + (j + 1) by omega, show n' + 1 + j = n' + (j + 1) by omega]
    exact this

theorem getElem?_split {α : Type} (l : List α) :
    ∀ (i : Nat) (e : α), l[i]? = some e → ∃ pre suf, l = pre ++ e :: suf ∧ pre.length = i := by
  induction l with
  | nil => intro i e h; simp at h
  | cons x xs ih =>
    intro i e h
    cases i with
    | zero =>
      simp only [List.getElem?_cons_zero, Option.some.injEq] at h
      exact ⟨[], xs, by simp [h], rfl⟩
    | succ i =>
      simp only [List.getElem?_cons_succ] at h
      obtain ⟨pre, suf, h1, h2⟩ := ih i e h
      exact ⟨x :: pre, suf, by simp [h1], by simp [h2]⟩

theorem eraseIdx_middle {α : Type} (pre suf : List α) (e : α) :
    (pre ++ e :: suf).eraseIdx pre.length = pre ++ suf := by
  induction pre with
  | nil => rfl
  | cons x xs ih => simp [List.eraseIdx, ih]

theorem permittedAt_eq (vr : List Bool) (n : Nat) : permittedAt vr n = vr[n]?.getD false := by
  unfold permittedAt
  by_cases h : n < vr.length
  · simp [h, List.getD_eq_getElem?_getD]
  · simp [h, List.getElem?_eq_none (Nat.le_of_not_lt h)]

theorem replayHead_skip (api : Api) (vr : List Bool) (pre suf : List RegistryEntry)
    (e : RegistryEntry)
    (hbad : ¬ (permittedAt vr pre.length = true ∧ api.verifySignature e = true)) :
    replayHead api vr (pre ++ e :: suf) 0 []
      = replayHead api (vr.eraseIdx pre.length) (pre ++ suf) 0 [] := by
  rw [replayHead_append, replayHead_append]
  have hstep : ∀ h, stepHead api vr (0 + pre.length) e h = h := by
    intro h
    unfold stepHead
    rw [if_neg]
    simpa using hbad
  simp only [replayHead, hstep]
  rw [replayHead_congr api vr (vr.eraseIdx pre.length) pre 0 0 []]
  · apply replayHead_congr
    intro j _
    rw [permittedAt_eq, permittedAt_eq, List.getElem?_eraseIdx_of_ge _ _ _ (by omega)]
    congr 2; omega
  · intro j hj
    rw [permittedAt_eq, permittedAt_eq, List.getElem?_eraseIdx_of_lt _ _ _ (by omega)]

/-! ## Rejected entries leave no trace in the head state (C6) -/

/-- C6: for every entry list, every vector of validation results and every index `i`
whose entry is not permitted or whose signature does not verify, the `headState` that
`updateHead` computes equals the one computed from the list without entry `i`, the other
entries keeping their validation results (the results vector loses position `i` too). -/
theorem rejected_entry_equals_exclusion (api : Api) (vr : List Bool) (k k' : Nat)
    (r : Registry) (i : Nat) (e : RegistryEntry) (hi : r.entries[i]? = some e)
    (hbad : permittedAt vr i = false ∨ api.verifySignature e = false) :
    (updateHeadWith api vr k r).2.headState
      = (updateHeadWith api (vr.eraseIdx i) k'
          { r with entries := r.entries.eraseIdx i }).2.headState := by
  rw [updateHeadWith_headState, updateHeadWith_headState]
  obtain ⟨pre, suf, hsplit, hlen⟩ := getElem?_split r.entries i e hi
  simp only [hsplit]
  subst hlen
  rw [eraseIdx_middle]
  refine replayHead_skip api vr pre suf e ?_
  rintro ⟨h1, h2⟩
  rcases hbad with h | h
  · rw [h] at h1; exact absurd h1 (by simp)
  · rw [h] at h2; exact absurd h2 (by simp)

/-- C6 at the log `[A, B]` where the validator rejects `B`: the head state is the one of
the log `[A]`. -/
theorem rejected_entry_equals_exclusion_witness :
    ([mkUpsert 1 0 "a" [1], mkUpsert 2 0 "b" [2]] : List RegistryEntry)[1]?
        = some (mkUpsert 2 0 "b" [2]) ∧
    (permittedAt [true, false] 1 = false ∨
      Api.trustAll.verifySignature (mkUpsert 2 0 "b" [2]) = false) ∧
    (updateHeadWith Api.trustAll [true, false] 1
        ⟨[mkUpsert 1 0 "a" [1], mkUpsert 2 0 "b" [2]], [], []⟩).2.headState
      = (updateHeadWith Api.trustAll (([true, false] : List Bool).eraseIdx 1) 0
          { (⟨[mkUpsert 1 0 "a" [1], mkUpsert 2 0 "b" [2]], [], []⟩ : Registry) with
            entries := ([mkUpsert 1 0 "a" [1], mkUpsert 2 0 "b" [2]] :
              List RegistryEntry).eraseIdx 1 }).2.headState :=
  ⟨by decide, Or.inl (by decide),
    rejected_entry_equals_exclusion Api.trustAll [true, false] 1 0
      ⟨[mkUpsert 1 0 "a" [1], mkUpsert 2 0 "b" [2]], [], []⟩ 1 (mkUpsert 2 0 "b" [2])
      (by decide) (Or.inl (by decide))⟩

/-! ## Lookups in the head state -/

theorem HeadState.get_erase_self (m : HeadState) (k : String) : (m.erase k).get k = none := by
  unfold HeadState.erase HeadState.get
  induction m with
  | nil => rfl
  | cons kv rest ih =>
    obtain ⟨k1, v1⟩ := kv
    by_cases h : k1 = k
    · simp only [List.filter_cons, h, bne_self_eq_false, Bool.false_eq_true, if_false, ih]
    · have hk : (k == k1) = false := by simpa using fun h' => h h'.symm
      have hb : (k1 != k) = true := by simpa using h
      simp only [List.filter_cons, hb, if_true, List.lookup_cons, hk, ih]

theorem HeadState.get_erase_of_ne (m : HeadState) {k k' : String} (hne : k' ≠ k) :
    (m.erase k').get k = m.get k := by
  unfold HeadState.erase HeadState.get
  induction m with
  | nil => rfl
  | cons kv rest ih =>
    obtain ⟨k1, v1⟩ := kv
    by_cases h : k1 = k'
    · have hk : (k == k1) = false := by rw [h]; simpa using fun h' => hne h'.symm
      simp only [List.filter_cons, h, bne_self_eq_false, Bool.false_eq_true, if_false,
        List.lookup_cons, ih]
      rw [← h, hk]
    · have hb : (k1 != k') = true := by simpa using h
      simp only [List.filter_cons, hb, if_true, List.lookup_cons, ih]

theorem HeadState.get_insertSorted_of_ne (m : HeadState) {k k' : String} (v : List Nat)
    (hne : k' ≠ k) : (HeadState.insertSorted k' v m).get k = m.get k := by
  have hk : (k == k') = false := by simpa using fun h' => hne h'.symm
  unfold HeadState.get
  induction m with
  | nil => simp [HeadState.insertSorted, List.lookup_cons, hk]
  | cons kv rest ih =>
    obtain ⟨k1, v1⟩ := kv
    unfold HeadState.insertSorted
    split_ifs
    · simp [List.lookup_cons, hk]
    · simp only [List.lookup_cons, ih]

theorem HeadState.get_emplace_of_ne (m : HeadState) {k k' : String} (v : List Nat)
    (hne : k' ≠ k) : (m.emplace k' v).get k = m.get k := by
  unfold HeadState.emplace
  split_ifs
  · rfl
  · exact HeadState.get_insertSorted_of_ne m v hne

/-- An entry that is rejected or concerns another key does not bring `k` into the head
state. -/
theorem stepHead_get_none (api : Api) (vr : List Bool) (n : Nat) (e : RegistryEntry)
    (h : HeadState) (k : String) (hk : h.get k = none)
    (hno : e.key = k → e.type = RegistryEntryType.UPSERT →
      ¬ (permittedAt vr n = true ∧ api.verifySignature e = true)) :
    (stepHead api vr n e h).get k = none := by
  unfold stepHead
  split_ifs with hv
  · have hv' : permittedAt vr n = true ∧ api.verifySignature e = true := by simpa using hv
    cases ht : e.type with
    | UPSERT =>
      have hne : e.key ≠ k := fun hek => hno hek ht hv'
      simp only [HeadState.get_emplace_of_ne h e.value hne, hk]
    | DELETE =>
      by_cases hek : e.key = k
      · simp only [hek, HeadState.get_erase_self]
      · simp only [HeadState.get_erase_of_ne h hek, hk]
  · exact hk

theorem replayHead_get_none (api : Api) (vr : List Bool) (k : String)
    (xs : List RegistryEntry) :
    ∀ (n : Nat) (h : HeadState), h.get k = none →
      (∀ j e, xs[j]? = some e → e.key = k → e.type = RegistryEntryType.UPSERT →
        ¬ (permittedAt vr (n + j) = true ∧ api.verifySignature e = true)) →
      (replayHead api vr xs n h).get k = none := by
  induction xs with
  | nil => intro n h hk _; exact hk
  | cons x xs ih =>
    intro n h hk hno
    simp only [replayHead]
    apply ih
    · exact stepHead_get_none api vr n x h k hk (fun h1 h2 => hno 0 x (by simp) h1 h2)
    · intro j e hj h1 h2
      have := hno (j + 1) e (by simpa using hj) h1 h2
      rw [show n + 1 + j = n + (j + 1) by omega]
      exact this

/-! ## Delete removes the key (C8) -/

/-- C8: for every entry list and key `k`, if the last entry in log order that has key `k`
and passes both the permission and the signature check is a Delete (entry `d` at index
`pre.length`; no later entry with key `k` passes both checks), then after `updateHead`
the head state does not contain `k`. -/
theorem delete_removes_key (api : Api) (vr : List Bool) (resultIndex : Nat) (r : Registry)
    (pre suf : List RegistryEntry) (d : RegistryEntry) (hr : r.entries = pre ++ d :: suf)
    (hd : d.type = RegistryEntryType.DELETE)
    (hperm : permittedAt vr pre.length = true) (hsig : api.verifySignature d = true)
    (hlast : ∀ j e, suf[j]? = some e → e.key = d.key →
      ¬ (permittedAt vr (pre.length + 1 + j) = true ∧ api.verifySignature e = true)) :
    (updateHeadWith api vr resultIndex r).2.headState.get d.key = none := by
  rw [updateHeadWith_headState, hr, replayHead_append]
  simp only [replayHead, Nat.zero_add]
  apply replayHead_get_none
  · simp only [stepHead, hperm, hsig, Bool.and_self, if_true, hd, HeadState.get_erase_self]
  · intro j e hj hk _
    exact hlast j e hj hk

/-- C8 at the log `[set k, delete k, set k by a rejected entry]`. -/
theorem delete_removes_key_witness :
    (mkDelete 2 1 "k").type = RegistryEntryType.DELETE ∧
    permittedAt [true, true, false] 1 = true ∧
    (updateHeadWith Api.trustAll [true, true, false] 0
      ⟨[mkUpsert 1 0 "k" [1], mkDelete 2 1 "k", mkUpsert 3 2 "k" [9]], [], []⟩).2.headState.get
        (mkDelete 2 1 "k").key = none :=
  ⟨rfl, by decide,
    delete_removes_key Api.trustAll [true, true, false] 0
      ⟨[mkUpsert 1 0 "k" [1], mkDelete 2 1 "k", mkUpsert 3 2 "k" [9]], [], []⟩
      [mkUpsert 1 0 "k" [1]] [mkUpsert 3 2 "k" [9]] (mkDelete 2 1 "k") rfl rfl (by decide) rfl
      (by
        intro j e hj _
        cases j with
        | zero =>
          simp only [List.getElem?_cons_zero, Option.some.injEq] at hj
          rintro ⟨h1, _⟩
          exact absurd h1 (by decide)
        | succ j => simp at hj)⟩


/-! ## Insertion order and the canonical order (C1, C2) -/

/-- C1 fails on the code: the four entries `A` (uuid 1, root), `B` (uuid 5, root), `X`
(uuid 30, child of `A`) and `Y` (uuid 40, child of `A`) inserted as `A, B, X, Y` give
the log `[A, X, B, Y]` and inserted as `A, B, Y, X` give `[A, X, Y, B]`, whatever the
validator and the keys; with every entry accepted the first head state has no key `k`
and the second maps `k` to `[5]`. -/
theorem insertion_order_changes_log :
    (∀ api : Api,
      (addEntriesInOrder api
          [mkUpsert 1 0 "k" [1], mkUpsert 5 0 "k" [5], mkUpsert 30 1 "k" [2], mkDelete 40 1 "k"]
          Registry.empty).entries
        = [mkUpsert 1 0 "k" [1], mkUpsert 30 1 "k" [2], mkUpsert 5 0 "k" [5], mkDelete 40 1 "k"] ∧
      (addEntriesInOrder api
          [mkUpsert 1 0 "k" [1], mkUpsert 5 0 "k" [5], mkDelete 40 1 "k", mkUpsert 30 1 "k" [2]]
          Registry.empty).entries
        = [mkUpsert 1 0 "k" [1], mkUpsert 30 1 "k" [2], mkDelete 40 1 "k", mkUpsert 5 0 "k" [5]]) ∧
    (addEntriesInOrder Api.trustAll
        [mkUpsert 1 0 "k" [1], mkUpsert 5 0 "k" [5], mkUpsert 30 1 "k" [2], mkDelete 40 1 "k"]
        Registry.empty).headState.get "k" = none ∧
    (addEntriesInOrder Api.trustAll
        [mkUpsert 1 0 "k" [1], mkUpsert 5 0 "k" [5], mkDelete 40 1 "k", mkUpsert 30 1 "k" [2]]
        Registry.empty).headState.get "k" = some [5] := by
  refine ⟨fun api => ?_, by decide, by decide⟩
  rw [addEntriesInOrder_entries, addEntriesInOrder_entries]
  exact ⟨by decide, by decide⟩

/-- C2 fails on the code: `A` (uuid 1, root), `B` (uuid 5, root), `X` (uuid 30, child of
`A`), `Y` (uuid 40, child of `A`), each inserted after its parent and with distinct
uuids, leave the log `[A, X, B, Y]`, while the pre-order traversal with ascending
siblings is `[A, X, Y, B]`: `Y` is put at the end of the log, behind the root `B`. -/
theorem log_differs_from_canonical_order :
    ∀ api : Api,
      FreshOrphanFreeReachable api
        (addEntriesInOrder api
          [mkUpsert 1 0 "a" [1], mkUpsert 5 0 "b" [5], mkUpsert 30 1 "a" [2],
            mkUpsert 40 1 "a" [3]] Registry.empty) ∧
      (addEntriesInOrder api
          [mkUpsert 1 0 "a" [1], mkUpsert 5 0 "b" [5], mkUpsert 30 1 "a" [2],
            mkUpsert 40 1 "a" [3]] Registry.empty).entries
        = [mkUpsert 1 0 "a" [1], mkUpsert 30 1 "a" [2], mkUpsert 5 0 "b" [5],
            mkUpsert 40 1 "a" [3]] ∧
      canonicalOrder
          [mkUpsert 1 0 "a" [1], mkUpsert 5 0 "b" [5], mkUpsert 30 1 "a" [2],
            mkUpsert 40 1 "a" [3]]
        = [mkUpsert 1 0 "a" [1], mkUpsert 30 1 "a" [2], mkUpsert 40 1 "a" [3],
            mkUpsert 5 0 "b" [5]] := by
  intro api
  refine ⟨?_, ?_, by decide⟩
  · have h1 : FreshOrphanFreeReachable api
        (addEntry api (mkUpsert 1 0 "a" [1]) Registry.empty).2 :=
      FreshOrphanFreeReachable.add _ _ FreshOrphanFreeReachable.empty (Or.inl rfl)
        (by decide) (by decide)
    have h2 : FreshOrphanFreeReachable api
        (addEntry api (mkUpsert 5 0 "b" [5])
          (addEntry api (mkUpsert 1 0 "a" [1]) Registry.empty).2).2 :=
      FreshOrphanFreeReachable.add _ _ h1 (Or.inl rfl) (by decide)
        (by simp only [addEntry_entries]; decide)
    have h3 : FreshOrphanFreeReachable api
        (addEntry api (mkUpsert 30 1 "a" [2])
          (addEntry api (mkUpsert 5 0 "b" [5])
            (addEntry api (mkUpsert 1 0 "a" [1]) Registry.empty).2).2).2 :=
      FreshOrphanFreeReachable.add _ _ h2
        (Or.inr ⟨mkUpsert 1 0 "a" [1], by simp only [addEntry_entries]; decide, rfl⟩)
        (by decide) (by simp only [addEntry_entries]; decide)
    exact FreshOrphanFreeReachable.add _ _ h3
      (Or.inr ⟨mkUpsert 1 0 "a" [1], by simp only [addEntry_entries]; decide, rfl⟩)
      (by decide) (by simp only [addEntry_entries]; decide)
  · rw [addEntriesInOrder_entries]; decide

/-! ## Duplicates (C4, C5) -/

/-- C4 fails on the code: after `addEntry` of `X` (uuid 30, parent 7) and of `P` (uuid 7,
parent 9) the log is `[X, P]`; a further `addEntry(X)` meets `P`, whose uuid is the
parent of `X`, before it meets `X`, inserts a second copy behind `P` and returns
`Ok(true)`. -/
theorem duplicate_inserted_behind_parent :
    (∀ api : Api,
      (addEntriesInOrder api [mkUpsert 30 7 "k" [1], mkUpsert 7 9 "k" [2]]
          Registry.empty).entries
        = [mkUpsert 30 7 "k" [1], mkUpsert 7 9 "k" [2]] ∧
      (addEntry api (mkUpsert 30 7 "k" [1])
          (addEntriesInOrder api [mkUpsert 30 7 "k" [1], mkUpsert 7 9 "k" [2]]
            Registry.empty)).2.entries
        = [mkUpsert 30 7 "k" [1], mkUpsert 7 9 "k" [2], mkUpsert 30 7 "k" [1]]) ∧
    (addEntry Api.trustAll (mkUpsert 30 7 "k" [1])
        (addEntriesInOrder Api.trustAll [mkUpsert 30 7 "k" [1], mkUpsert 7 9 "k" [2]]
          Registry.empty)).1 = Except.ok true := by
  refine ⟨fun api => ?_, rfl⟩
  rw [addEntry_entries, addEntriesInOrder_entries]
  exact ⟨by decide, by decide⟩

/-- C5 fails on the code: an entry whose uuid equals its own parentUUID (here both 5),
added twice to a fresh registry through `addSerializedEntry`, is in the log twice; the
second call finds "its parent" at index 0 and inserts behind it. -/
theorem self_parent_entry_is_added_twice :
    ∀ api : Api,
      (addSerializedEntry api (fun e : RegistryEntry => Except.ok e) (mkUpsert 5 5 "k" [1])
        (addSerializedEntry api (fun e : RegistryEntry => Except.ok e) (mkUpsert 5 5 "k" [1])
          Registry.empty).2).2.entries
        = [mkUpsert 5 5 "k" [1], mkUpsert 5 5 "k" [1]] := by
  intro api
  simp only [addSerializedEntry, addEntry_entries]
  decide

theorem scanRev_skip (e : RegistryEntry) (l2 : List RegistryEntry) :
    ∀ (rest : List RegistryEntry) (lb : Nat),
      (∀ x ∈ l2, x.uuid ≠ e.parentUUID) →
      (∀ x ∈ l2, x.parentUUID = e.parentUUID → e.uuid < x.uuid) →
      ∃ lb', scanRev e (l2.reverse ++ rest) lb = scanRev e rest lb' := by
  induction l2 with
  | nil => intro rest lb _ _; exact ⟨lb, rfl⟩
  | cons x xs ih =>
    intro rest lb h1 h2
    obtain ⟨lb', hlb'⟩ := ih (x :: rest) lb (fun y hy => h1 y (List.mem_cons_of_mem _ hy))
      (fun y hy => h2 y (List.mem_cons_of_mem _ hy))
    rw [List.reverse_cons, List.append_assoc, List.singleton_append, hlb']
    have hx1 := h1 x (List.mem_cons_self _ _)
    have hx2 := h2 x (List.mem_cons_self _ _)
    simp only [scanRev, if_neg hx1]
    by_cases hs : x.parentUUID = e.parentUUID
    · rw [if_pos hs, if_pos (hx2 hs)]; exact ⟨_, rfl⟩
    · rw [if_neg hs]; exact ⟨_, rfl⟩

/-- In a well-formed log the backward scan for an entry of the log reaches that entry and
reports the duplicate. -/
theorem addEntryScan_of_mem_wellFormed (es : List RegistryEntry) (hwf : WellFormedLog es)
    (e : RegistryEntry) (he : e ∈ es) :
    addEntryScan e es es.length (Nat.le_refl _) es.length = ScanOutcome.alreadyPresent := by
  obtain ⟨l1, l2, rfl⟩ := List.append_of_mem he
  have hpb := hwf.parents
  rw [parentsBefore_append] at hpb
  have hpar : e.parentUUID = UUID.Empty ∨ ∃ q ∈ l1, q.uuid = e.parentUUID := by
    have := hpb.2.1
    simpa using this
  have hd := hwf.distinct
  rw [List.pairwise_append, List.pairwise_cons] at hd
  have hsib := hwf.siblings
  unfold SiblingsAscending at hsib
  rw [List.pairwise_append, List.pairwise_cons] at hsib
  have hself : e.uuid ≠ e.parentUUID := by
    rcases hpar with h0 | ⟨q, hq, hqe⟩
    · rw [h0]; exact hwf.nonEmpty e (by simp)
    · rw [← hqe]; exact Ne.symm (hd.2.2 q hq e (by simp))
  have hl2 : ∀ x ∈ l2, x.uuid ≠ e.parentUUID := by
    intro x hx
    rcases hpar with h0 | ⟨q, hq, hqe⟩
    · rw [h0]; exact hwf.nonEmpty x (by simp [hx])
    · rw [← hqe]; exact Ne.symm (hd.2.2 q hq x (by simp [hx]))
  obtain ⟨lb', hlb'⟩ := scanRev_skip e l2 (e :: l1.reverse) (l1 ++ e :: l2).length hl2
    (fun x hx hp => hsib.2.1.1 x hx hp.symm)
  rw [addEntryScan_full, List.reverse_append, List.reverse_cons, List.append_assoc,
    List.singleton_append, hlb']
  simp [scanRev, hself]

/-- Duplicate rejection where every insertion was orphan-free with a fresh, non-`Empty`
uuid: `addEntry` of an entry of the log answers `AlreadyPresent` and changes nothing. -/
theorem addEntry_of_mem_fresh_orphan_free (api : Api) (r : Registry)
    (h : FreshOrphanFreeReachable api r) (e : RegistryEntry) (he : e ∈ r.entries) :
    addEntry api e r = (Except.error RegistryModificationError.AlreadyPresent, r) :=
  addEntry_of_alreadyPresent api e r (addEntryScan_of_mem_wellFormed r.entries h.wellFormed e he)

/-- Two `addSerializedEntry` calls with an entry whose uuid differs from its parentUUID
leave one entry in a fresh registry; the second call answers `AlreadyPresent`. -/
theorem addSerializedEntry_twice_of_ne (api : Api) {Serialized : Type}
    (fromBuffer : Serialized → Except String RegistryEntry) (serialized : Serialized)
    (e : RegistryEntry) (hparse : fromBuffer serialized = Except.ok e)
    (hne : e.uuid ≠ e.parentUUID) :
    (addSerializedEntry api fromBuffer serialized
        (addSerializedEntry api fromBuffer serialized Registry.empty).2).2.entries = [e] ∧
    (addSerializedEntry api fromBuffer serialized
        (addSerializedEntry api fromBuffer serialized Registry.empty).2).1
      = Except.error RegistryModificationError.AlreadyPresent := by
  simp only [addSerializedEntry, hparse]
  have h1 := (addEntry_empty api e).2
  have hscan : addEntryScan e (addEntry api e Registry.empty).2.entries
      (addEntry api e Registry.empty).2.entries.length (Nat.le_refl _)
      (addEntry api e Registry.empty).2.entries.length = ScanOutcome.alreadyPresent := by
    rw [addEntryScan_full, h1]
    simp [scanRev, hne]
  rw [addEntry_of_alreadyPresent api e _ hscan]
  exact ⟨h1, rfl⟩

/-! ## Upsert on a key that is present (C7) -/

/-- An `emplace` on a key that is present changes nothing, whatever the new value. -/
theorem HeadState.emplace_of_present (m : HeadState) (k : String) (v : List Nat)
    (h : (m.get k).isSome = true) : m.emplace k v = m := by
  unfold HeadState.emplace
  unfold HeadState.get at h
  rw [if_pos h]

/-- C7 fails on the code: in the log `[set k to [1], set k to [2]]`, both entries
permitted and correctly signed, the last accepted entry for `k` is the Upsert of `[2]`,
yet `updateHead` leaves `k` at `[1]`: `map::emplace` does not replace a present key. -/
theorem upsert_keeps_old_value :
    permittedAt (Api.trustAll.validateEntries
        [mkUpsert 1 0 "k" [1], mkUpsert 2 1 "k" [2]]) 1 = true ∧
    Api.trustAll.verifySignature (mkUpsert 2 1 "k" [2]) = true ∧
    (updateHead Api.trustAll 1
        ⟨[mkUpsert 1 0 "k" [1], mkUpsert 2 1 "k" [2]], [], []⟩).2.headState.get "k"
      = some [1] := by
  decide

/-! ## The result of `addEntry` for a rejected entry (C9) -/

/-- C9 fails on the code: `addEntry` of a root entry whose signature does not verify,
into the empty registry, keeps the entry in the log and out of the head state, and
returns `Ok(true)`. -/
theorem rejected_first_entry_returns_ok :
    Api.trustNone.verifySignature (mkUpsert 1 0 "k" [1]) = false ∧
    (addEntry Api.trustNone (mkUpsert 1 0 "k" [1]) Registry.empty).1 = Except.ok true ∧
    (addEntry Api.trustNone (mkUpsert 1 0 "k" [1]) Registry.empty).2.entries
      = [mkUpsert 1 0 "k" [1]] ∧
    (addEntry Api.trustNone (mkUpsert 1 0 "k" [1]) Registry.empty).2.headState = [] :=
  ⟨rfl, rfl, by decide, by decide⟩

/-! ## Sibling order (C3) -/

/-- The sibling order also breaks, without any orphan, when an entry carries the uuid
`Empty`: the roots `A` (uuid 5) and `B` (uuid 3) end up as `[A, Z, B]` when `Z` (uuid
`Empty`, child of `A`) is inserted between them. -/
theorem sibling_order_fails_with_empty_uuid :
    ∀ api : Api,
      (addEntriesInOrder api [mkUpsert 5 0 "k" [1], mkUpsert 0 5 "k" [2], mkUpsert 3 0 "k" [3]]
          Registry.empty).entries
        = [mkUpsert 5 0 "k" [1], mkUpsert 0 5 "k" [2], mkUpsert 3 0 "k" [3]] := by
  intro api
  rw [addEntriesInOrder_entries]; decide

/-- The sibling order also breaks, without any orphan, when a uuid is used twice: with
`D` repeating the uuid of `A` behind `B`, the child `Y` (uuid 20) of `A` lands behind its
sibling `X` (uuid 30). -/
theorem sibling_order_fails_with_repeated_uuid :
    ∀ api : Api,
      (addEntriesInOrder api
          [mkUpsert 1 0 "k" [1], mkUpsert 2 0 "k" [2], mkUpsert 30 1 "k" [3],
            mkUpsert 1 2 "k" [4], mkUpsert 20 1 "k" [5]] Registry.empty).entries
        = [mkUpsert 1 0 "k" [1], mkUpsert 30 1 "k" [3], mkUpsert 2 0 "k" [2],
            mkUpsert 1 2 "k" [4], mkUpsert 20 1 "k" [5]] := by
  intro api
  rw [addEntriesInOrder_entries]; decide

/-! ## Parent before child (C10) -/

/-- C10, as stated, fails: `addEntry` of an entry whose parent (uuid 7) is unknown puts
it into the empty log, where no entry precedes it. -/
theorem parent_precedes_child_fails_for_orphan :
    ¬ (∀ (api : Api) (r : Registry), Reachable api r →
        ∀ (i : Nat) (e : RegistryEntry), r.entries[i]? = some e →
          e.parentUUID = UUID.Empty ∨
            ∃ j p, j < i ∧ r.entries[j]? = some p ∧ p.uuid = e.parentUUID) := by
  intro h
  have hr : Reachable Api.trustAll
      (addEntry Api.trustAll (mkUpsert 30 7 "k" [1]) Registry.empty).2 :=
    Reachable.add _ _ Reachable.empty
  rcases h _ _ hr 0 (mkUpsert 30 7 "k" [1]) (by decide) with h0 | ⟨j, _, hj, _⟩
  · exact absurd h0 (by decide)
  · exact absurd hj (Nat.not_lt_zero j)

/-- C10, amended: in every registry reached from the empty registry by `addEntry` calls
that each pass an entry whose parentUUID is Empty or the uuid of an entry already in the
log, each entry's parentUUID is Empty or the uuid of an entry at a smaller index. -/
theorem parent_precedes_child_of_orphan_free (api : Api) (r : Registry)
    (h : OrphanFreeReachable api r) (i : Nat) (e : RegistryEntry)
    (hi : r.entries[i]? = some e) :
    e.parentUUID = UUID.Empty ∨
      ∃ j p, j < i ∧ r.entries[j]? = some p ∧ p.uuid = e.parentUUID := by
  rcases h.parentsBefore.getElem? hi with h0 | h1 | h2
  · exact Or.inl h0
  · simp at h1
  · exact Or.inr h2

/-- The amended C10 at the log `[A, X]` of a root `A` and its child `X`. -/
theorem parent_precedes_child_of_orphan_free_witness :
    OrphanFreeReachable Api.trustAll
      (addEntry Api.trustAll (mkUpsert 30 1 "k" [2])
        (addEntry Api.trustAll (mkUpsert 1 0 "k" [1]) Registry.empty).2).2 ∧
    ((mkUpsert 30 1 "k" [2]).parentUUID = UUID.Empty ∨
      ∃ j p, j < 1 ∧
        (addEntry Api.trustAll (mkUpsert 30 1 "k" [2])
          (addEntry Api.trustAll (mkUpsert 1 0 "k" [1]) Registry.empty).2).2.entries[j]? = some p ∧
        p.uuid = (mkUpsert 30 1 "k" [2]).parentUUID) :=
  have hr : OrphanFreeReachable Api.trustAll
      (addEntry Api.trustAll (mkUpsert 30 1 "k" [2])
        (addEntry Api.trustAll (mkUpsert 1 0 "k" [1]) Registry.empty).2).2 :=
    OrphanFreeReachable.add _ _
      (OrphanFreeReachable.add _ _ OrphanFreeReachable.empty (Or.inl rfl))
      (Or.inr ⟨mkUpsert 1 0 "k" [1], by decide, rfl⟩)
  ⟨hr, parent_precedes_child_of_orphan_free Api.trustAll _ hr 1 (mkUpsert 30 1 "k" [2])
    (by decide)⟩

/-! ## Termination of `addEntries` (C17) -/

theorem addEntriesLoop_cycle_step (api : Api) (fuel : Nat) :
    addEntriesLoop api 0 (fuel + 1) [mkUpsert 1 2 "k" [1], mkUpsert 2 1 "k" [2]] 2 Registry.empty
      = addEntriesLoop api 0 fuel [mkUpsert 1 2 "k" [1], mkUpsert 2 1 "k" [2]] 2
          Registry.empty := by
  rfl

theorem addEntriesLoop_self_parent_step (api : Api) (fuel : Nat) :
    addEntriesLoop api 0 (fuel + 1) [mkUpsert 5 5 "k" [1]] 1 Registry.empty
      = addEntriesLoop api 0 fuel [mkUpsert 5 5 "k" [1]] 1 Registry.empty := by
  rfl

/-- C17 fails on the code: for two new entries that name each other as parent (uuid 1
with parent 2, uuid 2 with parent 1), and for one new entry that names itself (uuid 5,
parent 5), an iteration of the loop of `addEntries` on the empty registry leaves the
pending list, `prevSize` and the registry as they were, so no number of iterations
empties the pending list. -/
theorem addEntries_cycle_never_returns :
    ∀ (api : Api) (fuel : Nat),
      addEntries api [mkUpsert 1 2 "k" [1], mkUpsert 2 1 "k" [2]] 0 Registry.empty fuel = none ∧
      addEntries api [mkUpsert 5 5 "k" [1]] 0 Registry.empty fuel = none := by
  intro api fuel
  unfold addEntries
  induction fuel with
  | zero => exact ⟨rfl, rfl⟩
  | succ n ih =>
    exact ⟨(addEntriesLoop_cycle_step api n).trans ih.1,
      (addEntriesLoop_self_parent_step api n).trans ih.2⟩

/-! ## What `addEntries` keeps (C11) -/

theorem scanRev_alreadyPresent (e : RegistryEntry) :
    ∀ (rs : List RegistryEntry) (lb : Nat), scanRev e rs lb = ScanOutcome.alreadyPresent →
      ∃ x ∈ rs, x.uuid = e.uuid ∧ x.parentUUID = e.parentUUID := by
  intro rs
  induction rs with
  | nil =>
    intro lb h
    simp only [scanRev] at h
    split_ifs at h
  | cons x rest ih =>
    intro lb h
    simp only [scanRev] at h
    split_ifs at h with h1 h2 h3 h4
    · obtain ⟨y, hy, hyu⟩ := ih _ h
      exact ⟨y, List.mem_cons_of_mem _ hy, hyu⟩
    · refine ⟨x, List.mem_cons_self _ _, ?_, h2⟩
      have h3' : ¬ e.uuid < x.uuid := h3
      have h4' : ¬ x.uuid < e.uuid := h4
      exact Nat.le_antisymm (Nat.le_of_not_lt h3') (Nat.le_of_not_lt h4')
    · obtain ⟨y, hy, hyu⟩ := ih _ h
      exact ⟨y, List.mem_cons_of_mem _ hy, hyu⟩

/-- An entry of the log stays in the log across `addEntry`. -/
theorem addEntry_mem_mono (api : Api) (e : RegistryEntry) (r : Registry) {x : RegistryEntry}
    (hx : x ∈ r.entries) : x ∈ (addEntry api e r).2.entries := by
  rcases addEntry_entries_cases api e r with hsame | ⟨idx, b, -, hnew⟩
  · rw [hsame]; exact hx
  · rw [hnew]
    rw [← List.take_append_drop idx r.entries] at hx
    simp only [List.mem_append, List.mem_cons] at hx ⊢
    rcases hx with hx | hx
    · exact Or.inl hx
    · exact Or.inr (Or.inr hx)

/-- After `addEntry(e)` the log holds an entry with the uuid of `e`. -/
theorem addEntry_covers (api : Api) (e : RegistryEntry) (r : Registry) :
    ∃ x ∈ (addEntry api e r).2.entries, x.uuid = e.uuid := by
  rw [addEntry_entries]
  unfold logAfterAdd
  split
  · exact ⟨e, by simp, rfl⟩
  · next h =>
    rw [addEntryScan_full] at h
    obtain ⟨x, hx, hxu, -⟩ := scanRev_alreadyPresent e _ _ h
    exact ⟨x, by simpa using hx, hxu⟩

theorem addEntriesInOrder_mem_mono (api : Api) (es : List RegistryEntry) :
    ∀ (r : Registry) {x : RegistryEntry}, x ∈ r.entries →
      x ∈ (addEntriesInOrder api es r).entries := by
  induction es with
  | nil => intro r x hx; exact hx
  | cons e es ih =>
    intro r x hx
    exact ih (addEntry api e r).2 (addEntry_mem_mono api e r hx)

theorem addEntriesInOrder_covers (api : Api) (es : List RegistryEntry) :
    ∀ (r : Registry) (e : RegistryEntry), e ∈ es →
      ∃ x ∈ (addEntriesInOrder api es r).entries, x.uuid = e.uuid := by
  induction es with
  | nil => intro r e he; simp at he
  | cons a es ih =>
    intro r e he
    simp only [List.mem_cons] at he
    rcases he with rfl | he
    · obtain ⟨x, hx, hxu⟩ := addEntry_covers api e r
      exact ⟨x, addEntriesInOrder_mem_mono api es (addEntry api e r).2 hx, hxu⟩
    · exact ih (addEntry api a r).2 e he

theorem sweepFor_spec (entry : RegistryEntry) :
    ∀ (newEntries pending : List RegistryEntry),
      (∀ e ∈ pending, e ∈ (sweepFor entry newEntries pending).2) ∧
      (∀ e ∈ newEntries, e ∈ (sweepFor entry newEntries pending).1 ∨
        e ∈ (sweepFor entry newEntries pending).2 ∨ entry.uuid = e.uuid) := by
  intro newEntries
  induction newEntries with
  | nil => intro pending; simp [sweepFor]
  | cons it rest ih =>
    intro pending
    simp only [sweepFor]
    split_ifs with h1 h2
    · obtain ⟨hp, hn⟩ := ih (pending ++ [it])
      refine ⟨fun e he => hp e (by simp [he]), ?_⟩
      intro e he
      simp only [List.mem_cons] at he
      rcases he with rfl | he
      · exact Or.inr (Or.inl (hp e (by simp)))
      · exact hn e he
    · obtain ⟨hp, hn⟩ := ih pending
      refine ⟨hp, ?_⟩
      intro e he
      simp only [List.mem_cons] at he
      rcases he with rfl | he
      · exact Or.inr (Or.inr h2.symm)
      · exact hn e he
    · obtain ⟨hp, hn⟩ := ih pending
      refine ⟨hp, ?_⟩
      intro e he
      simp only [List.mem_cons] at he ⊢
      rcases he with rfl | he
      · exact Or.inl (Or.inl rfl)
      · rcases hn e he with h | h | h
        · exact Or.inl (Or.inr h)
        · exact Or.inr (Or.inl h)
        · exact Or.inr (Or.inr h)

theorem collectPending_spec :
    ∀ (entries newEntries pending : List RegistryEntry),
      (∀ e ∈ pending, e ∈ (collectPending entries newEntries pending).2) ∧
      (∀ e ∈ newEntries, e ∈ (collectPending entries newEntries pending).1 ∨
        e ∈ (collectPending entries newEntries pending).2 ∨
        ∃ x ∈ entries, x.uuid = e.uuid) := by
  intro entries
  induction entries with
  | nil =>
    intro newEntries pending
    exact ⟨fun e he => he, fun e he => Or.inl he⟩
  | cons entry more ih =>
    intro newEntries pending
    simp only [collectPending]
    obtain ⟨hp1, hn1⟩ := sweepFor_spec entry newEntries pending
    obtain ⟨hp2, hn2⟩ := ih (sweepFor entry newEntries pending).1
      (sweepFor entry newEntries pending).2
    refine ⟨fun e he => hp2 e (hp1 e he), ?_⟩
    intro e he
    rcases hn1 e he with h | h | h
    · rcases hn2 e h with h' | h' | ⟨x, hx, hxu⟩
      · exact Or.inl h'
      · exact Or.inr (Or.inl h')
      · exact Or.inr (Or.inr ⟨x, List.mem_cons_of_mem _ hx, hxu⟩)
    · exact Or.inr (Or.inl (hp2 e h))
    · exact Or.inr (Or.inr ⟨entry, List.mem_cons_self _ _, h⟩)

theorem hangingSweep_spec :
    ∀ (rest kept pending : List RegistryEntry),
      (∀ e ∈ pending, e ∈ (hangingSweep kept rest pending).2) ∧
      (∀ e, e ∈ kept ∨ e ∈ rest → e ∈ (hangingSweep kept rest pending).1 ∨
        e ∈ (hangingSweep kept rest pending).2) := by
  intro rest
  induction rest with
  | nil =>
    intro kept pending
    refine ⟨fun e he => he, fun e he => ?_⟩
    rcases he with he | he
    · exact Or.inl he
    · simp at he
  | cons it rest ih =>
    intro kept pending
    simp only [hangingSweep]
    split_ifs with h
    · obtain ⟨hp, hn⟩ := ih kept (pending ++ [it])
      refine ⟨fun e he => hp e (by simp [he]), ?_⟩
      intro e he
      simp only [List.mem_cons] at he
      rcases he with he | rfl | he
      · exact hn e (Or.inl he)
      · exact Or.inr (hp e (by simp))
      · exact hn e (Or.inr he)
    · obtain ⟨hp, hn⟩ := ih (kept ++ [it]) pending
      refine ⟨hp, ?_⟩
      intro e he
      simp only [List.mem_cons] at he
      rcases he with he | rfl | he
      · exact hn e (Or.inl (by simp [he]))
      · exact hn e (Or.inl (by simp))
      · exact hn e (Or.inr he)

/-- When the loop of `addEntries` ends, the log still holds what it held and holds an
entry with the uuid of every element of the pending list. -/
theorem addEntriesLoop_covers (api : Api) (startingIndex : Nat) :
    ∀ (fuel : Nat) (newEntries : List RegistryEntry) (prevSize : Nat) (r r' : Registry),
      addEntriesLoop api startingIndex fuel newEntries prevSize r = some r' →
      (∀ x ∈ r.entries, x ∈ r'.entries) ∧
      (∀ e ∈ newEntries, ∃ x ∈ r'.entries, x.uuid = e.uuid) := by
  intro fuel
  induction fuel with
  | zero =>
    intro newEntries prevSize r r' h
    simp only [addEntriesLoop] at h
    split_ifs at h with hlen
    injection h with h
    subst h
    have : newEntries = [] := List.length_eq_zero.mp (by omega)
    subst this
    exact ⟨fun x hx => hx, by simp⟩
  | succ n ih =>
    intro newEntries prevSize r r' h
    simp only [addEntriesLoop] at h
    split_ifs at h with hlen hprev
    · obtain ⟨hmono, hcov⟩ := ih _ _ _ _ h
      obtain ⟨-, hcol⟩ := collectPending_spec (r.entries.drop startingIndex) newEntries []
      obtain ⟨hpend, hhang⟩ := hangingSweep_spec
        (collectPending (r.entries.drop startingIndex) newEntries []).1 []
        (collectPending (r.entries.drop startingIndex) newEntries []).2
      have hmono1 : ∀ x ∈ r.entries, x ∈ r'.entries := fun x hx =>
        hmono x (addEntriesInOrder_mem_mono api _ _ (addEntriesInOrder_mem_mono api _ _ hx))
      refine ⟨hmono1, ?_⟩
      intro e he
      rcases hcol e he with h1 | h1 | ⟨x, hx, hxu⟩
      · rcases hhang e (Or.inr h1) with h2 | h2
        · exact hcov e h2
        · obtain ⟨x, hx, hxu⟩ := addEntriesInOrder_covers api _
            (addEntriesInOrder api
              (collectPending (r.entries.drop startingIndex) newEntries []).2 r) e h2
          exact ⟨x, hmono x hx, hxu⟩
      · obtain ⟨x, hx, hxu⟩ := addEntriesInOrder_covers api _
          (addEntriesInOrder api
            (collectPending (r.entries.drop startingIndex) newEntries []).2 r) e (hpend e h1)
        exact ⟨x, hmono x hx, hxu⟩
      · exact ⟨x, hmono1 x (List.mem_of_mem_drop hx), hxu⟩
    · obtain ⟨hmono, hcov⟩ := ih _ _ _ _ h
      obtain ⟨-, hcol⟩ := collectPending_spec (r.entries.drop startingIndex) newEntries []
      have hmono1 : ∀ x ∈ r.entries, x ∈ r'.entries := fun x hx =>
        hmono x (addEntriesInOrder_mem_mono api _ _ hx)
      refine ⟨hmono1, ?_⟩
      intro e he
      rcases hcol e he with h1 | h1 | ⟨x, hx, hxu⟩
      · exact hcov e h1
      · obtain ⟨x, hx, hxu⟩ := addEntriesInOrder_covers api _ r e h1
        exact ⟨x, hmono x hx, hxu⟩
      · exact ⟨x, hmono1 x (List.mem_of_mem_drop hx), hxu⟩
    · injection h with h
      subst h
      have : newEntries = [] := List.length_eq_zero.mp (by omega)
      subst this
      exact ⟨fun x hx => hx, by simp⟩

/-- C11, as stated, fails: `addEntries` of the single entry `X` (uuid 30, parent 7) into
the empty registry returns with `X` in the log, although the parent of `X` is neither
`Empty` nor an entry of the registry nor an entry of the list. -/
theorem unresolvable_entry_is_inserted :
    ¬ (∀ (api : Api) (r : Registry) (newEntries : List RegistryEntry)
        (startingIndex fuel : Nat) (r' : Registry),
        addEntries api newEntries startingIndex r fuel = some r' →
        ∀ e ∈ newEntries, ¬ Resolvable r.entries newEntries e → e ∉ r'.entries) := by
  intro h
  have hrun : addEntries Api.trustAll [mkUpsert 30 7 "k" [1]] 0 Registry.empty 2
      = some (addEntry Api.trustAll (mkUpsert 30 7 "k" [1]) Registry.empty).2 := rfl
  have hunres : ¬ Resolvable Registry.empty.entries [mkUpsert 30 7 "k" [1]]
      (mkUpsert 30 7 "k" [1]) := by
    intro hres
    cases hres with
    | root _ h0 => exact absurd h0 (by decide)
    | inLog _ p hp _ => simp [Registry.empty] at hp
    | inList _ p hp hpu _ =>
      simp only [List.mem_singleton] at hp
      subst hp
      exact absurd hpu (by decide)
  exact h _ _ _ _ _ _ hrun (mkUpsert 30 7 "k" [1]) (by simp) hunres (by decide)

theorem sweepFor_sub (entry : RegistryEntry) :
    ∀ (newEntries pending : List RegistryEntry),
      (∀ y ∈ (sweepFor entry newEntries pending).1, y ∈ newEntries) ∧
      (∀ y ∈ (sweepFor entry newEntries pending).2, y ∈ newEntries ∨ y ∈ pending) ∧
      (sweepFor entry newEntries pending).1.length + (sweepFor entry newEntries pending).2.length
        ≤ newEntries.length + pending.length := by
  intro newEntries
  induction newEntries with
  | nil => intro pending; simp [sweepFor]
  | cons it rest ih =>
    intro pending
    simp only [sweepFor]
    split_ifs with h1 h2
    · obtain ⟨hn, hp, hl⟩ := ih (pending ++ [it])
      refine ⟨fun y hy => List.mem_cons_of_mem _ (hn y hy), ?_, ?_⟩
      · intro y hy
        rcases hp y hy with h | h
        · exact Or.inl (List.mem_cons_of_mem _ h)
        · simp only [List.mem_append, List.mem_singleton] at h
          rcases h with h | h
          · exact Or.inr h
          · exact Or.inl (h ▸ List.mem_cons_self _ _)
      · simp only [List.length_append, List.length_cons, List.length_nil] at hl ⊢
        omega
    · obtain ⟨hn, hp, hl⟩ := ih pending
      refine ⟨fun y hy => List.mem_cons_of_mem _ (hn y hy), ?_, ?_⟩
      · intro y hy
        rcases hp y hy with h | h
        · exact Or.inl (List.mem_cons_of_mem _ h)
        · exact Or.inr h
      · simp only [List.length_cons]
        omega
    · obtain ⟨hn, hp, hl⟩ := ih pending
      refine ⟨?_, ?_, ?_⟩
      · intro y hy
        simp only [List.mem_cons] at hy ⊢
        rcases hy with h | h
        · exact Or.inl h
        · exact Or.inr (hn y h)
      · intro y hy
        rcases hp y hy with h | h
        · exact Or.inl (List.mem_cons_of_mem _ h)
        · exact Or.inr h
      · simp only [List.length_cons]
        omega

theorem collectPending_sub :
    ∀ (entries newEntries pending : List RegistryEntry),
      (∀ y ∈ (collectPending entries newEntries pending).1, y ∈ newEntries) ∧
      (∀ y ∈ (collectPending entries newEntries pending).2, y ∈ newEntries ∨ y ∈ pending) ∧
      (collectPending entries newEntries pending).1.length
          + (collectPending entries newEntries pending).2.length
        ≤ newEntries.length + pending.length := by
  intro entries
  induction entries with
  | nil =>
    intro newEntries pending
    exact ⟨fun y hy => hy, fun y hy => Or.inr hy, Nat.le_refl _⟩
  | cons entry more ih =>
    intro newEntries pending
    simp only [collectPending]
    obtain ⟨hn1, hp1, hl1⟩ := sweepFor_sub entry newEntries pending
    obtain ⟨hn2, hp2, hl2⟩ := ih (sweepFor entry newEntries pending).1
      (sweepFor entry newEntries pending).2
    refine ⟨fun y hy => hn1 y (hn2 y hy), ?_, Nat.le_trans hl2 hl1⟩
    intro y hy
    rcases hp2 y hy with h | h
    · exact Or.inl (hn1 y h)
    · exact hp1 y h

theorem hangingSweep_sub :
    ∀ (rest kept pending : List RegistryEntry),
      (∀ y ∈ (hangingSweep kept rest pending).1, y ∈ kept ∨ y ∈ rest) ∧
      (∀ y ∈ (hangingSweep kept rest pending).2, y ∈ pending ∨ y ∈ rest) ∧
      (hangingSweep kept rest pending).1.length ≤ kept.length + rest.length := by
  intro rest
  induction rest with
  | nil =>
    intro kept pending
    exact ⟨fun y hy => Or.inl hy, fun y hy => Or.inl hy, by simp [hangingSweep]⟩
  | cons it rest ih =>
    intro kept pending
    simp only [hangingSweep]
    split_ifs with h
    · obtain ⟨hn, hp, hl⟩ := ih kept (pending ++ [it])
      refine ⟨?_, ?_, ?_⟩
      · intro y hy
        rcases hn y hy with h' | h'
        · exact Or.inl h'
        · exact Or.inr (List.mem_cons_of_mem _ h')
      · intro y hy
        rcases hp y hy with h' | h'
        · simp only [List.mem_append, List.mem_singleton] at h'
          rcases h' with h' | h'
          · exact Or.inl h'
          · exact Or.inr (h' ▸ List.mem_cons_self _ _)
        · exact Or.inr (List.mem_cons_of_mem _ h')
      · simp only [List.length_cons]
        omega
    · obtain ⟨hn, hp, hl⟩ := ih (kept ++ [it]) pending
      refine ⟨?_, ?_, ?_⟩
      · intro y hy
        rcases hn y hy with h' | h'
        · simp only [List.mem_append, List.mem_singleton] at h'
          rcases h' with h' | h'
          · exact Or.inl h'
          · exact Or.inr (h' ▸ List.mem_cons_self _ _)
        · exact Or.inr (List.mem_cons_of_mem _ h')
      · intro y hy
        rcases hp y hy with h' | h'
        · exact Or.inl h'
        · exact Or.inr (List.mem_cons_of_mem _ h')
      · simp only [List.length_append, List.length_cons, List.length_nil] at hl ⊢
        omega

/-- The search for hanging branches erases at least one element when some element names
a parent that is the uuid of no element at hand. -/
theorem hangingSweep_length_lt :
    ∀ (rest kept pending : List RegistryEntry),
      (∃ x ∈ rest, ∀ y, y ∈ kept ∨ y ∈ rest ∨ y ∈ pending → y.uuid ≠ x.parentUUID) →
      (hangingSweep kept rest pending).1.length < kept.length + rest.length := by
  intro rest
  induction rest with
  | nil => intro kept pending ⟨x, hx, _⟩; simp at hx
  | cons it rest ih =>
    intro kept pending ⟨x, hx, hno⟩
    simp only [hangingSweep]
    split_ifs with h
    · have := (hangingSweep_sub rest kept (pending ++ [it])).2.2
      simp only [List.length_cons]
      omega
    · have hxne : x ≠ it := by
        rintro rfl
        apply h
        simp only [Bool.not_eq_true', Bool.or_eq_false_iff, List.any_eq_false,
          decide_eq_true_eq]
        constructor
        · intro y hy
          simp only [List.mem_append, List.mem_cons] at hy
          apply hno
          rcases hy with hy | hy | hy
          · exact Or.inl hy
          · exact Or.inr (Or.inl (hy ▸ List.mem_cons_self _ _))
          · exact Or.inr (Or.inl (List.mem_cons_of_mem _ hy))
        · intro y hy
          exact hno y (Or.inr (Or.inr hy))
      have hx' : x ∈ rest := by
        simp only [List.mem_cons] at hx
        rcases hx with hx | hx
        · exact absurd hx hxne
        · exact hx
      have := ih (kept ++ [it]) pending ⟨x, hx', by
        intro y hy
        apply hno
        simp only [List.mem_append, List.mem_singleton] at hy
        rcases hy with (hy | hy) | hy | hy
        · exact Or.inl hy
        · exact Or.inr (Or.inl (hy ▸ List.mem_cons_self _ _))
        · exact Or.inr (Or.inl (List.mem_cons_of_mem _ hy))
        · exact Or.inr (Or.inr hy)⟩
      simp only [List.length_append, List.length_cons, List.length_nil] at this ⊢
      omega

/-- Without a parent cycle every iteration of the loop of `addEntries` shortens the
pending list, so as many iterations as the list is long empty it. -/
theorem addEntriesLoop_returns (api : Api) (startingIndex : Nat) (list : List RegistryEntry)
    (hacyclic : NoParentCycle list) :
    ∀ (fuel : Nat) (newEntries : List RegistryEntry) (r : Registry),
      newEntries.length ≤ fuel → (∀ y ∈ newEntries, y ∈ list) →
      ∃ r', addEntriesLoop api startingIndex fuel newEntries newEntries.length r = some r' := by
  intro fuel
  induction fuel with
  | zero =>
    intro newEntries r hlen _
    have : newEntries = [] := List.length_eq_zero.mp (by omega)
    subst this
    exact ⟨r, rfl⟩
  | succ n ih =>
    intro newEntries r hlen hsub
    simp only [addEntriesLoop]
    obtain ⟨hn1, -, hl1⟩ := collectPending_sub (r.entries.drop startingIndex) newEntries []
    simp only [List.length_nil, Nat.add_zero] at hl1
    split_ifs with hpos hprev
    · obtain ⟨hn2, -, -⟩ := hangingSweep_sub
        (collectPending (r.entries.drop startingIndex) newEntries []).1 []
        (collectPending (r.entries.drop startingIndex) newEntries []).2
      have hpend : (collectPending (r.entries.drop startingIndex) newEntries []).2 = [] :=
        List.length_eq_zero.mp (by omega)
      have hne : (collectPending (r.entries.drop startingIndex) newEntries []).1 ≠ [] := by
        intro h0
        rw [h0] at hprev
        simp only [List.length_nil] at hprev
        omega
      obtain ⟨x, hx, hno⟩ := hacyclic _ hne (fun y hy => hsub y (hn1 y hy))
      have hlt := hangingSweep_length_lt
        (collectPending (r.entries.drop startingIndex) newEntries []).1 []
        (collectPending (r.entries.drop startingIndex) newEntries []).2
        ⟨x, hx, by
          intro y hy
          rcases hy with hy | hy | hy
          · simp at hy
          · exact hno y hy
          · rw [hpend] at hy; simp at hy⟩
      simp only [List.length_nil, Nat.zero_add] at hlt
      apply ih
      · omega
      · intro y hy
        rcases hn2 y hy with h | h
        · simp at h
        · exact hsub y (hn1 y h)
    · apply ih
      · omega
      · intro y hy
        exact hsub y (hn1 y hy)
    · exact ⟨r, rfl⟩

/-- An entry `e` enters the log when `addEntry(e)` finds no entry with its uuid. -/
theorem addEntry_mem_of_fresh (api : Api) (e : RegistryEntry) (r : Registry)
    (hfresh : ∀ x ∈ r.entries, x.uuid ≠ e.uuid) : e ∈ (addEntry api e r).2.entries := by
  rw [addEntry_entries]
  unfold logAfterAdd
  split
  · simp
  · next h =>
    rw [addEntryScan_full] at h
    obtain ⟨x, hx, hxu, -⟩ := scanRev_alreadyPresent e _ _ h
    exact absurd hxu (hfresh x (by simpa using hx))

/-- The log after `addEntry(y)` holds nothing but `y` and what it held. -/
theorem addEntry_mem_cases (api : Api) (y : RegistryEntry) (r : Registry) {x : RegistryEntry}
    (hx : x ∈ (addEntry api y r).2.entries) : x = y ∨ x ∈ r.entries := by
  rcases addEntry_entries_cases api y r with hsame | ⟨idx, b, -, hnew⟩
  · rw [hsame] at hx; exact Or.inr hx
  · rw [hnew] at hx
    simp only [List.mem_append, List.mem_cons] at hx
    rcases hx with hx | hx | hx
    · exact Or.inr (List.mem_of_mem_take hx)
    · exact Or.inl hx
    · exact Or.inr (List.mem_of_mem_drop hx)

/-- Successive `addEntry` calls with entries of which only `e` carries the uuid of `e`,
on a log without that uuid: `e` enters the log when it is among them, and the log stays
without that uuid when it is not. -/
theorem addEntriesInOrder_keeps (api : Api) (e : RegistryEntry) (es : List RegistryEntry) :
    ∀ (r : Registry), (∀ y ∈ es, y.uuid = e.uuid → y = e) →
      (∀ x ∈ r.entries, x.uuid ≠ e.uuid) →
      (e ∈ es → e ∈ (addEntriesInOrder api es r).entries) ∧
      (e ∉ es → ∀ x ∈ (addEntriesInOrder api es r).entries, x.uuid ≠ e.uuid) := by
  induction es with
  | nil => intro r _ hfresh; exact ⟨fun h => absurd h (by simp), fun _ => hfresh⟩
  | cons y es ih =>
    intro r hes hfresh
    have hes' : ∀ z ∈ es, z.uuid = e.uuid → z = e := fun z hz =>
      hes z (List.mem_cons_of_mem _ hz)
    by_cases hy : y = e
    · subst hy
      refine ⟨fun _ => ?_, fun h => absurd (List.mem_cons_self _ _) h⟩
      exact addEntriesInOrder_mem_mono api es (addEntry api y r).2
        (addEntry_mem_of_fresh api y r hfresh)
    · have hyu : y.uuid ≠ e.uuid := fun h => hy (hes y (List.mem_cons_self _ _) h)
      have hfresh' : ∀ x ∈ (addEntry api y r).2.entries, x.uuid ≠ e.uuid := by
        intro x hx
        rcases addEntry_mem_cases api y r hx with rfl | hx
        · exact hyu
        · exact hfresh x hx
      obtain ⟨h1, h2⟩ := ih (addEntry api y r).2 hes' hfresh'
      refine ⟨fun h => ?_, fun h => ?_⟩
      · simp only [List.mem_cons] at h
        rcases h with h | h
        · exact absurd h.symm hy
        · exact h1 h
      · exact h2 (fun h' => h (List.mem_cons_of_mem _ h'))

/-- An entry that is in the log, or pending with its uuid absent from the log, is in the
log when the loop of `addEntries` ends. -/
theorem addEntriesLoop_keeps (api : Api) (startingIndex : Nat) (list : List RegistryEntry)
    (e : RegistryEntry) (hlist : ∀ y ∈ list, y.uuid = e.uuid → y = e) :
    ∀ (fuel : Nat) (newEntries : List RegistryEntry) (prevSize : Nat) (r r' : Registry),
      (∀ y ∈ newEntries, y ∈ list) →
      addEntriesLoop api startingIndex fuel newEntries prevSize r = some r' →
      (e ∈ r.entries ∨ (e ∈ newEntries ∧ ∀ x ∈ r.entries, x.uuid ≠ e.uuid)) →
      e ∈ r'.entries := by
  intro fuel
  induction fuel with
  | zero =>
    intro newEntries prevSize r r' _ h hinv
    simp only [addEntriesLoop] at h
    split_ifs at h with hlen
    injection h with h
    subst h
    have : newEntries = [] := List.length_eq_zero.mp (by omega)
    subst this
    rcases hinv with h | ⟨h, -⟩
    · exact h
    · simp at h
  | succ n ih =>
    intro newEntries prevSize r r' hsub h hinv
    have hmono := (addEntriesLoop_covers api startingIndex (n + 1) newEntries prevSize r r' h).1
    rcases hinv with hin | ⟨hpend, hfresh⟩
    · exact hmono e hin
    · simp only [addEntriesLoop] at h
      obtain ⟨hn1, hp1, -⟩ := collectPending_sub (r.entries.drop startingIndex) newEntries []
      obtain ⟨-, hcol⟩ := collectPending_spec (r.entries.drop startingIndex) newEntries []
      have hp1' : ∀ y ∈ (collectPending (r.entries.drop startingIndex) newEntries []).2,
          y.uuid = e.uuid → y = e := by
        intro y hy
        rcases hp1 y hy with h' | h'
        · exact hlist y (hsub y h')
        · simp at h'
      obtain ⟨hk1, hk2⟩ := addEntriesInOrder_keeps api e
        (collectPending (r.entries.drop startingIndex) newEntries []).2 r hp1' hfresh
      have hstate1 : e ∈ (addEntriesInOrder api
            (collectPending (r.entries.drop startingIndex) newEntries []).2 r).entries ∨
          (e ∈ (collectPending (r.entries.drop startingIndex) newEntries []).1 ∧
            ∀ x ∈ (addEntriesInOrder api
              (collectPending (r.entries.drop startingIndex) newEntries []).2 r).entries,
              x.uuid ≠ e.uuid) := by
        by_cases hep : e ∈ (collectPending (r.entries.drop startingIndex) newEntries []).2
        · exact Or.inl (hk1 hep)
        · rcases hcol e hpend with h1 | h1 | ⟨x, hx, hxu⟩
          · exact Or.inr ⟨h1, hk2 hep⟩
          · exact absurd h1 hep
          · exact absurd hxu (hfresh x (List.mem_of_mem_drop hx))
      split_ifs at h with hlen hprev
      · obtain ⟨hn2, hp2, -⟩ := hangingSweep_sub
          (collectPending (r.entries.drop startingIndex) newEntries []).1 []
          (collectPending (r.entries.drop startingIndex) newEntries []).2
        obtain ⟨-, hhang⟩ := hangingSweep_spec
          (collectPending (r.entries.drop startingIndex) newEntries []).1 []
          (collectPending (r.entries.drop startingIndex) newEntries []).2
        refine ih _ _ _ _ ?_ h ?_
        · intro y hy
          rcases hn2 y hy with h' | h'
          · simp at h'
          · exact hsub y (hn1 y h')
        · rcases hstate1 with hin1 | ⟨hpend1, hfresh1⟩
          · exact Or.inl (addEntriesInOrder_mem_mono api _ _ hin1)
          · have hp2' : ∀ y ∈ (hangingSweep []
                (collectPending (r.entries.drop startingIndex) newEntries []).1
                (collectPending (r.entries.drop startingIndex) newEntries []).2).2,
                y.uuid = e.uuid → y = e := by
              intro y hy
              rcases hp2 y hy with h' | h'
              · exact hp1' y h'
              · exact hlist y (hsub y (hn1 y h'))
            obtain ⟨hk3, hk4⟩ := addEntriesInOrder_keeps api e _ _ hp2' hfresh1
            by_cases hep : e ∈ (hangingSweep []
                (collectPending (r.entries.drop startingIndex) newEntries []).1
                (collectPending (r.entries.drop startingIndex) newEntries []).2).2
            · exact Or.inl (hk3 hep)
            · rcases hhang e (Or.inr hpend1) with h1 | h1
              · exact Or.inr ⟨h1, hk4 hep⟩
              · exact absurd h1 hep
      · refine ih _ _ _ _ ?_ h hstate1
        intro y hy
        exact hsub y (hn1 y hy)
      · simp only [List.length_pos, ne_eq, not_not] at hlen
        rw [hlen] at hpend
        simp at hpend

/-- When the list of new entries holds no parent cycle, `addEntries` returns, keeps the
registry's entries, and has in the log every entry of the list whose uuid is carried by
no entry of the registry and by no different entry of the list. -/
theorem addEntries_keeps_entry (api : Api) (r : Registry)
    (newEntries : List RegistryEntry) (startingIndex fuel : Nat) (e : RegistryEntry)
    (hacyclic : NoParentCycle newEntries) (hfuel : newEntries.length ≤ fuel)
    (he : e ∈ newEntries) (hlist : ∀ y ∈ newEntries, y.uuid = e.uuid → y = e)
    (hlog : ∀ x ∈ r.entries, x.uuid ≠ e.uuid) :
    ∃ r', addEntries api newEntries startingIndex r fuel = some r' ∧
      e ∈ r'.entries ∧ ∀ x ∈ r.entries, x ∈ r'.entries := by
  obtain ⟨r', hr'⟩ := addEntriesLoop_returns api startingIndex newEntries hacyclic fuel
    newEntries r hfuel (fun y hy => hy)
  refine ⟨r', hr', ?_, ?_⟩
  · exact addEntriesLoop_keeps api startingIndex newEntries e hlist fuel newEntries
      newEntries.length r r' (fun y hy => hy) hr' (Or.inr ⟨he, hlog⟩)
  · exact (addEntriesLoop_covers api startingIndex fuel newEntries newEntries.length r r' hr').1

/-- C11, amended: for every registry and every list of new entries that holds no parent
cycle, `addEntries` returns (as many iterations as the list is long suffice), and an entry
of the list whose chain of parents never reaches Empty or an entry of the registry is not
discarded: when its uuid is not the uuid of an entry of the registry nor of a different
entry of the list, it is in `entries` afterwards; every entry that was in the registry is
still there. (An unresolvable parent makes no difference: `addEntries_keeps_entry` is the
same statement for every entry of the list.) -/
theorem addEntries_keeps_unresolvable_entry (api : Api) (r : Registry)
    (newEntries : List RegistryEntry) (startingIndex fuel : Nat) (e : RegistryEntry)
    (hacyclic : NoParentCycle newEntries) (hfuel : newEntries.length ≤ fuel)
    (he : e ∈ newEntries) (_hunres : ¬ Resolvable r.entries newEntries e)
    (hlist : ∀ y ∈ newEntries, y.uuid = e.uuid → y = e)
    (hlog : ∀ x ∈ r.entries, x.uuid ≠ e.uuid) :
    ∃ r', addEntries api newEntries startingIndex r fuel = some r' ∧
      e ∈ r'.entries ∧ ∀ x ∈ r.entries, x ∈ r'.entries :=
  addEntries_keeps_entry api r newEntries startingIndex fuel e hacyclic hfuel he hlist hlog

/-- The list `[C, X]`, where `C` (uuid 31) is a child of `X` (uuid 30) and the parent of
`X` (uuid 7) is unknown, holds no parent cycle. -/
theorem noParentCycle_hanging_branch :
    NoParentCycle [mkUpsert 31 30 "k" [3], mkUpsert 30 7 "k" [2]] := by
  intro part hne hsub
  have hmem : ∀ y ∈ part, y = mkUpsert 31 30 "k" [3] ∨ y = mkUpsert 30 7 "k" [2] := by
    intro y hy
    simpa using hsub y hy
  by_cases hX : mkUpsert 30 7 "k" [2] ∈ part
  · refine ⟨_, hX, ?_⟩
    intro y hy
    rcases hmem y hy with rfl | rfl <;> decide
  · obtain ⟨z, hz⟩ := List.exists_mem_of_ne_nil part hne
    have hzC : z = mkUpsert 31 30 "k" [3] := by
      rcases hmem z hz with h | h
      · exact h
      · exact absurd (h ▸ hz) hX
    refine ⟨z, hz, ?_⟩
    subst hzC
    intro y hy
    rcases hmem y hy with rfl | rfl
    · decide
    · exact absurd hy hX

/-- The amended C11 at the registry `[R]` and the list `[C, X]`, where the parent of `X`
(uuid 7) is unknown and `C` is a child of `X`: `addEntries` returns within two iterations
and `X` is in the log afterwards. -/
theorem addEntries_keeps_unresolvable_entry_witness :
    NoParentCycle [mkUpsert 31 30 "k" [3], mkUpsert 30 7 "k" [2]] ∧
    ¬ Resolvable (⟨[mkUpsert 1 0 "k" [1]], [], []⟩ : Registry).entries
        [mkUpsert 31 30 "k" [3], mkUpsert 30 7 "k" [2]] (mkUpsert 30 7 "k" [2]) ∧
    ∃ r', addEntries Api.trustAll [mkUpsert 31 30 "k" [3], mkUpsert 30 7 "k" [2]] 0
          ⟨[mkUpsert 1 0 "k" [1]], [], []⟩ 2 = some r' ∧
      mkUpsert 30 7 "k" [2] ∈ r'.entries ∧
      ∀ x ∈ (⟨[mkUpsert 1 0 "k" [1]], [], []⟩ : Registry).entries, x ∈ r'.entries :=
  have hunres : ¬ Resolvable (⟨[mkUpsert 1 0 "k" [1]], [], []⟩ : Registry).entries
      [mkUpsert 31 30 "k" [3], mkUpsert 30 7 "k" [2]] (mkUpsert 30 7 "k" [2]) := by
    intro hres
    cases hres with
    | root _ h0 => exact absurd h0 (by decide)
    | inLog _ p hp hpu =>
      simp only [List.mem_singleton] at hp
      subst hp
      exact absurd hpu (by decide)
    | inList _ p hp hpu _ =>
      simp only [List.mem_cons, List.mem_singleton, List.not_mem_nil, or_false] at hp
      rcases hp with rfl | rfl
      · exact absurd hpu (by decide)
      · exact absurd hpu (by decide)
  ⟨noParentCycle_hanging_branch, hunres,
    addEntries_keeps_unresolvable_entry Api.trustAll ⟨[mkUpsert 1 0 "k" [1]], [], []⟩
      [mkUpsert 31 30 "k" [3], mkUpsert 30 7 "k" [2]] 0 2 (mkUpsert 30 7 "k" [2])
      noParentCycle_hanging_branch (by decide) (by decide) hunres (by decide) (by decide)⟩

/-- An entry of the list that carries the uuid of a registry entry is erased by the first
loop of `addEntries`, also when its parent is unknown: the registry `[R]` with `R` of
uuid 1 is what it was after `addEntries` of `{uuid 1, parent 7}`. -/
theorem addEntries_erases_known_uuid :
    ∀ api : Api,
      addEntries api [mkUpsert 1 7 "k" [2]] 0 ⟨[mkUpsert 1 0 "k" [1]], [], []⟩ 1
        = some ⟨[mkUpsert 1 0 "k" [1]], [], []⟩ := by
  intro api
  rfl

/-- Of two entries of the list with one uuid and one parent the second is answered with
`AlreadyPresent`: after `addEntries` of `[X1, X2]`, both of uuid 30 and unknown parent 7,
the log is `[X1]`. -/
theorem addEntries_drops_second_of_equal_uuid :
    ∀ api : Api,
      (addEntries api [mkUpsert 30 7 "a" [1], mkUpsert 30 7 "b" [2]] 0 Registry.empty 2).map
          (fun r => r.entries)
        = some [mkUpsert 30 7 "a" [1]] := by
  intro api
  have h : addEntries api [mkUpsert 30 7 "a" [1], mkUpsert 30 7 "b" [2]] 0 Registry.empty 2
      = some (addEntriesInOrder api [mkUpsert 30 7 "a" [1], mkUpsert 30 7 "b" [2]]
          Registry.empty) := rfl
  rw [h, Option.map_some', addEntriesInOrder_entries]
  decide

/-! ## The hash chain (C13) -/

theorem updateHeadLoop_hashChain (api : Api) (vr : List Bool) (k : Nat)
    (xs : List RegistryEntry) :
    ∀ (n : Nat) (s : HeadLoop),
      (updateHeadLoop api vr k xs n s).hashChain = s.hashChain ++ chainFrom api xs s.lastHash := by
  induction xs with
  | nil => intro n s; simp [updateHeadLoop, chainFrom]
  | cons e rest ih =>
    intro n s
    simp only [updateHeadLoop, chainFrom]
    split_ifs <;> rw [ih] <;> try simp
    all_goals (cases e.type <;> simp)

theorem updateHeadWith_hashChain (api : Api) (vr : List Bool) (k : Nat) (r : Registry) :
    (updateHeadWith api vr k r).2.hashChain = chainFrom api r.entries [] := by
  unfold updateHeadWith
  simp only []
  split <;> simp [updateHeadLoop_hashChain]

theorem chainFrom_length (api : Api) (xs : List RegistryEntry) :
    ∀ last : List Nat, (chainFrom api xs last).length = xs.length := by
  induction xs with
  | nil => intro last; rfl
  | cons e rest ih => intro last; simp [chainFrom, ih]

theorem chainFrom_zero (api : Api) (xs : List RegistryEntry) (last : List Nat) :
    (chainFrom api xs last)[0]?
      = xs[0]?.map (fun e => api.sha512Vec (api.getSignatureContent e ++ last)) := by
  cases xs <;> simp [chainFrom]

theorem chainFrom_succ (api : Api) (xs : List RegistryEntry) :
    ∀ (last : List Nat) (i : Nat) (e : RegistryEntry) (h : List Nat),
      xs[i + 1]? = some e → (chainFrom api xs last)[i]? = some h →
      (chainFrom api xs last)[i + 1]?
        = some (api.sha512Vec (api.getSignatureContent e ++ h)) := by
  induction xs with
  | nil => intro last i e h he; simp at he
  | cons x rest ih =>
    intro last i e h he hh
    cases i with
    | zero =>
      simp only [chainFrom, List.getElem?_cons_zero, Option.some.injEq] at hh
      simp only [List.getElem?_cons_succ] at he
      simp only [chainFrom, List.getElem?_cons_succ, chainFrom_zero, he, Option.map_some', hh]
    | succ i =>
      simp only [chainFrom, List.getElem?_cons_succ] at hh he ⊢
      exact ih _ i e h he hh

/-- C13: after `updateHead` on any entry list, whatever the validation results and the
signature verdicts, `hashChain` has one element per entry, `hashChain[0]` is the hash of
the signed bytes of `entries[0]`, and `hashChain[i+1]` is the hash of the signed bytes of
`entries[i+1]` followed by `hashChain[i]`. -/
theorem hashChain_definition (api : Api) (vr : List Bool) (k : Nat) (r : Registry) :
    (updateHeadWith api vr k r).2.hashChain.length = r.entries.length ∧
    (∀ e, r.entries[0]? = some e →
      (updateHeadWith api vr k r).2.hashChain[0]?
        = some (api.sha512Vec (api.getSignatureContent e))) ∧
    (∀ i e h, r.entries[i + 1]? = some e →
      (updateHeadWith api vr k r).2.hashChain[i]? = some h →
      (updateHeadWith api vr k r).2.hashChain[i + 1]?
        = some (api.sha512Vec (api.getSignatureContent e ++ h))) := by
  rw [updateHeadWith_hashChain]
  refine ⟨chainFrom_length api _ _, ?_, ?_⟩
  · intro e he
    rw [chainFrom_zero, he]
    simp
  · intro i e h he hh
    exact chainFrom_succ api _ _ i e h he hh

/-! ## Hash chains of two logs (C14, C15) -/

/-- Two logs whose signed bytes agree up to index `i` have the same hash at `i`. -/
theorem chainFrom_agree (api : Api) (xs1 : List RegistryEntry) :
    ∀ (xs2 : List RegistryEntry) (last : List Nat) (i : Nat),
      (∀ j, j ≤ i → xs1[j]?.map api.getSignatureContent = xs2[j]?.map api.getSignatureContent) →
      (chainFrom api xs1 last)[i]? = (chainFrom api xs2 last)[i]? := by
  induction xs1 with
  | nil =>
    intro xs2 last i h
    have h0 := h 0 (Nat.zero_le _)
    cases xs2 with
    | nil => rfl
    | cons y ys => simp at h0
  | cons x xs ih =>
    intro xs2 last i h
    have h0 := h 0 (Nat.zero_le _)
    cases xs2 with
    | nil => simp at h0
    | cons y ys =>
      simp only [List.getElem?_cons_zero, Option.map_some', Option.some.injEq] at h0
      cases i with
      | zero => simp only [chainFrom, List.getElem?_cons_zero, h0]
      | succ i =>
        simp only [chainFrom, List.getElem?_cons_succ, h0]
        apply ih
        intro j hj
        have := h (j + 1) (by omega)
        simpa using this

/-- C14: for any two entry lists and any index `i`, if the hash chains computed by
`updateHead` differ at `i`, then the signed bytes of the two lists differ at some index
`j <= i` (whatever the validation results of the two replicas). -/
theorem hash_difference_has_earlier_cause (api : Api) (vr1 vr2 : List Bool) (k1 k2 : Nat)
    (r1 r2 : Registry) (i : Nat)
    (hdiff : (updateHeadWith api vr1 k1 r1).2.hashChain[i]?
      ≠ (updateHeadWith api vr2 k2 r2).2.hashChain[i]?) :
    ∃ j, j ≤ i ∧
      r1.entries[j]?.map api.getSignatureContent ≠ r2.entries[j]?.map api.getSignatureContent := by
  rw [updateHeadWith_hashChain, updateHeadWith_hashChain] at hdiff
  by_contra hno
  apply hdiff
  apply chainFrom_agree
  intro j hj
  by_contra hne
  exact hno ⟨j, hj, hne⟩

/-- C14 at the logs `[A, B]` and `[A, B']`, which differ at index 1. -/
theorem hash_difference_has_earlier_cause_witness :
    (updateHeadWith Api.trustAll [] 0
        ⟨[mkUpsert 1 0 "k" [1], mkUpsert 2 1 "k" [2]], [], []⟩).2.hashChain[1]?
      ≠ (updateHeadWith Api.trustAll [] 0
        ⟨[mkUpsert 1 0 "k" [1], mkUpsert 3 1 "k" [2]], [], []⟩).2.hashChain[1]? ∧
    ∃ j, j ≤ 1 ∧
      ([mkUpsert 1 0 "k" [1], mkUpsert 2 1 "k" [2]] : List RegistryEntry)[j]?.map
          Api.trustAll.getSignatureContent
        ≠ ([mkUpsert 1 0 "k" [1], mkUpsert 3 1 "k" [2]] : List RegistryEntry)[j]?.map
          Api.trustAll.getSignatureContent :=
  ⟨by decide,
    hash_difference_has_earlier_cause Api.trustAll [] [] 0 0
      ⟨[mkUpsert 1 0 "k" [1], mkUpsert 2 1 "k" [2]], [], []⟩
      ⟨[mkUpsert 1 0 "k" [1], mkUpsert 3 1 "k" [2]], [], []⟩ 1 (by decide)⟩

/-- Logs that agree on their first `n` entries have hash chains that agree on their
first `n` elements. -/
theorem hashChain_prefix_agree (api : Api) (vr1 vr2 : List Bool) (k1 k2 : Nat)
    (r1 r2 : Registry) (n : Nat) (h : r1.entries.take n = r2.entries.take n) :
    (updateHeadWith api vr1 k1 r1).2.hashChain.take n
      = (updateHeadWith api vr2 k2 r2).2.hashChain.take n := by
  rw [updateHeadWith_hashChain, updateHeadWith_hashChain]
  apply List.ext_getElem?
  intro i
  by_cases hi : i < n
  · rw [List.getElem?_take_of_lt hi, List.getElem?_take_of_lt hi]
    apply chainFrom_agree
    intro j hj
    have hj' : j < n := by omega
    have := congrArg (fun l => l[j]?) h
    simp only [List.getElem?_take_of_lt hj'] at this
    rw [this]
  · rw [List.getElem?_eq_none (by simp; omega), List.getElem?_eq_none (by simp; omega)]

theorem encodeBytes_injective : Function.Injective encodeBytes := by
  intro a
  induction a with
  | nil =>
    intro b h
    cases b with
    | nil => rfl
    | cons y ys => simp [encodeBytes] at h
  | cons x xs ih =>
    intro b h
    cases b with
    | nil => simp [encodeBytes] at h
    | cons y ys =>
      simp only [encodeBytes, Nat.add_right_cancel_iff, Nat.pair_eq_pair] at h
      rw [h.1, ih h.2]

theorem encodingHash_injective : Function.Injective Api.encodingHash.sha512Vec := by
  intro a b h
  simp only [Api.encodingHash, List.cons.injEq, and_true] at h
  exact encodeBytes_injective h

/-- With an injective hash of fixed output length, equal hashes at index `i` (reached from
starting hashes of equal length) force equal starting hashes and equal signed bytes up to
`i`. -/
theorem chainFrom_injective (api : Api) (n : Nat)
    (hinj : Function.Injective api.sha512Vec) (hlen : ∀ x, (api.sha512Vec x).length = n)
    (xs1 : List RegistryEntry) :
    ∀ (xs2 : List RegistryEntry) (last1 last2 : List Nat) (i : Nat),
      last1.length = last2.length → i < xs1.length → i < xs2.length →
      (chainFrom api xs1 last1)[i]? = (chainFrom api xs2 last2)[i]? →
      last1 = last2 ∧
        ∀ j, j ≤ i →
          xs1[j]?.map api.getSignatureContent = xs2[j]?.map api.getSignatureContent := by
  induction xs1 with
  | nil => intro xs2 last1 last2 i _ h1; simp at h1
  | cons x xs ih =>
    intro xs2 last1 last2 i hl h1 h2 heq
    cases xs2 with
    | nil => simp at h2
    | cons y ys =>
      have hhead : api.sha512Vec (api.getSignatureContent x ++ last1)
          = api.sha512Vec (api.getSignatureContent y ++ last2) →
          api.getSignatureContent x = api.getSignatureContent y ∧ last1 = last2 :=
        fun h => List.append_inj' (hinj h) hl
      cases i with
      | zero =>
        simp only [chainFrom, List.getElem?_cons_zero, Option.some.injEq] at heq
        obtain ⟨hs, hlast⟩ := hhead heq
        refine ⟨hlast, ?_⟩
        intro j hj
        have : j = 0 := by omega
        subst this
        simp [hs]
      | succ i =>
        simp only [chainFrom, List.getElem?_cons_succ] at heq
        simp only [List.length_cons] at h1 h2
        obtain ⟨hh, hrest⟩ := ih ys _ _ i (by rw [hlen, hlen]) (by omega) (by omega) heq
        obtain ⟨hs, hlast⟩ := hhead hh
        refine ⟨hlast, ?_⟩
        intro j hj
        cases j with
        | zero => simp [hs]
        | succ j =>
          simp only [List.getElem?_cons_succ]
          exact hrest j (by omega)

/-- In the embedding, where byte values are unbounded and the signed bytes are a
parameter, logs of different length can share a head hash under an injective hash with
outputs of one length: with `Api.encodingHash` the one-entry log `[B]`, whose signed
bytes are `[2, 1, 2, 102]`, and the two-entry log `[A0, A1]`, whose signed bytes are
`[1, 0, 1]` and `[2, 1, 2]`, have the same head hash, `102` being the hash of `[1, 0, 1]`.
No hash over `vector<uint8_t>` is injective with outputs of one length, so this says
nothing about an input of the program. -/
theorem head_hash_shared_by_logs_of_different_length :
    ¬ (∀ (api : Api) (n : Nat) (vr1 vr2 : List Bool) (k1 k2 : Nat) (r1 r2 : Registry),
        Function.Injective api.sha512Vec → (∀ x, (api.sha512Vec x).length = n) →
        r1.entries ≠ [] → r2.entries ≠ [] →
        (updateHeadWith api vr1 k1 r1).2.hashChain.getLast?
          = (updateHeadWith api vr2 k2 r2).2.hashChain.getLast? →
        r1.entries.map api.getSignatureContent = r2.entries.map api.getSignatureContent) := by
  intro h
  have := h Api.encodingHash 1 [] [] 0 0 ⟨[mkUpsert 2 1 "k" [2, 102]], [], []⟩
    ⟨[mkUpsert 1 0 "k" [1], mkUpsert 2 1 "k" [2]], [], []⟩ encodingHash_injective
    (fun _ => rfl) (by decide) (by decide) (by decide)
  exact absurd this (by decide)

/-- Among logs of one length the head hash tells the signed bytes: assuming the hash
function is injective with outputs of one fixed length, two non-empty entry lists of the
same length whose hash chains computed by `updateHead` have the same last element have
the same sequence of signed bytes, in the same order. -/
theorem head_hash_identifies_log_of_equal_length (api : Api) (n : Nat)
    (hinj : Function.Injective api.sha512Vec) (hlen : ∀ x, (api.sha512Vec x).length = n)
    (vr1 vr2 : List Bool) (k1 k2 : Nat) (r1 r2 : Registry)
    (hne : r1.entries ≠ []) (hsame : r1.entries.length = r2.entries.length)
    (hlast : (updateHeadWith api vr1 k1 r1).2.hashChain.getLast?
      = (updateHeadWith api vr2 k2 r2).2.hashChain.getLast?) :
    r1.entries.map api.getSignatureContent = r2.entries.map api.getSignatureContent := by
  rw [updateHeadWith_hashChain, updateHeadWith_hashChain, List.getLast?_eq_getElem?,
    List.getLast?_eq_getElem?, chainFrom_length, chainFrom_length, ← hsame] at hlast
  have hpos : 0 < r1.entries.length := List.length_pos.mpr hne
  have hall := (chainFrom_injective api n hinj hlen r1.entries r2.entries [] []
    (r1.entries.length - 1) rfl (by omega) (by omega) hlast).2
  apply List.ext_getElem?
  intro j
  rw [List.getElem?_map, List.getElem?_map]
  by_cases hj : j < r1.entries.length
  · exact hall j (by omega)
  · rw [List.getElem?_eq_none (by omega), List.getElem?_eq_none (by omega)]

/-- The statement `head_hash_identifies_log_of_equal_length` at two two-entry logs with
the same head hash. -/
theorem head_hash_identifies_log_of_equal_length_witness :
    Function.Injective Api.encodingHash.sha512Vec ∧
    (∀ x, (Api.encodingHash.sha512Vec x).length = 1) ∧
    (updateHeadWith Api.encodingHash [] 0
        ⟨[mkUpsert 1 0 "a" [1], mkDelete 2 1 "a"], [], []⟩).2.hashChain.getLast?
      = (updateHeadWith Api.encodingHash [true] 1
        ⟨[mkUpsert 1 0 "b" [1], mkUpsert 2 1 "b" []], [], []⟩).2.hashChain.getLast? ∧
    ([mkUpsert 1 0 "a" [1], mkDelete 2 1 "a"] : List RegistryEntry).map
        Api.encodingHash.getSignatureContent
      = ([mkUpsert 1 0 "b" [1], mkUpsert 2 1 "b" []] : List RegistryEntry).map
          Api.encodingHash.getSignatureContent :=
  ⟨encodingHash_injective, fun _ => rfl, by decide,
    head_hash_identifies_log_of_equal_length Api.encodingHash 1 encodingHash_injective
      (fun _ => rfl) [] [true] 0 1 ⟨[mkUpsert 1 0 "a" [1], mkDelete 2 1 "a"], [], []⟩
      ⟨[mkUpsert 1 0 "b" [1], mkUpsert 2 1 "b" []], [], []⟩ (by decide) (by decide)
      (by decide)⟩

/-! ## The result of `updateHead` (C18) -/

theorem updateHeadLoop_error (api : Api) (vr : List Bool) (k : Nat)
    (xs : List RegistryEntry) :
    ∀ (n : Nat) (s : HeadLoop),
      ((updateHeadLoop api vr k xs n s).isError, (updateHeadLoop api vr k xs n s).errorKind)
        = replayError api vr k xs n (s.isError, s.errorKind) := by
  induction xs with
  | nil => intro n s; rfl
  | cons e rest ih =>
    intro n s
    simp only [updateHeadLoop, replayError, stepError]
    cases hp : permittedAt vr n <;> cases hv : api.verifySignature e <;>
      by_cases hk : n = k <;>
      simp only [hk, Bool.not_false, Bool.not_true, Bool.or_self, Bool.or_true, Bool.or_false,
        Bool.true_or, Bool.false_eq_true, if_true, if_false, ih, not_false_eq_true] <;>
      first
        | rfl
        | (cases e.type <;> rfl)

theorem replayError_eq (api : Api) (vr : List Bool) (k : Nat) (xs : List RegistryEntry) :
    ∀ (n : Nat) (err : Bool × RegistryModificationError),
      replayError api vr k xs n err
        = if n ≤ k then
            match xs[k - n]? with
            | some e => stepError api vr k k e err
            | none => err
          else err := by
  induction xs with
  | nil => intro n err; simp [replayError]
  | cons x rest ih =>
    intro n err
    simp only [replayError]
    rw [ih]
    rcases Nat.lt_trichotomy n k with hlt | heq | hgt
    · have hne : n ≠ k := by omega
      have hstep : stepError api vr k n x err = err := by simp [stepError, hne]
      have hidx : k - n = (k - (n + 1)) + 1 := by omega
      rw [if_pos (by omega), if_pos (by omega), hstep, hidx, List.getElem?_cons_succ]
    · subst heq
      rw [if_neg (by omega), if_pos (Nat.le_refl _)]
      simp
    · have hne : n ≠ k := by omega
      have hstep : stepError api vr k n x err = err := by simp [stepError, hne]
      rw [if_neg (by omega), if_neg (by omega), hstep]

theorem updateHeadWith_result (api : Api) (vr : List Bool) (k : Nat) (r : Registry) :
    (updateHeadWith api vr k r).1 = resultFor api vr k r.entries := by
  have herr := updateHeadLoop_error api vr k r.entries 0
    ⟨[], [], [], false, RegistryModificationError.PermissionDenied⟩
  rw [replayError_eq] at herr
  simp only [Nat.zero_le, if_true, Nat.sub_zero] at herr
  unfold updateHeadWith resultFor
  simp only []
  generalize updateHeadLoop api vr k r.entries 0
    ⟨[], [], [], false, RegistryModificationError.PermissionDenied⟩ = s at herr ⊢
  cases hget : r.entries[k]? with
  | none =>
    rw [hget] at herr
    simp only [Prod.mk.injEq] at herr
    simp [herr.1]
  | some e =>
    rw [hget] at herr
    simp only [stepError, if_true] at herr
    cases hv : api.verifySignature e <;> cases hp : permittedAt vr k <;>
      simp only [hv, hp, if_true, if_false, Bool.true_eq_false, Bool.false_eq_true,
        Prod.mk.injEq] at herr ⊢ <;>
      simp [herr.1, herr.2]

/-- C18: `updateHead(save, resultIndex)`, for any validation results, answers as its
description says: `Err` exactly when `resultIndex` addresses an entry that is not
permitted or whose signature is invalid, with kind `SignatureVerificationFailed` when the
signature is invalid (also when the entry is not permitted either) and `PermissionDenied`
otherwise; what the entries at other indices are or fail does not enter the answer. -/
theorem updateHead_result (api : Api) (vr : List Bool) (resultIndex : Nat) (r : Registry) :
    (updateHeadWith api vr resultIndex r).1
        = (match r.entries[resultIndex]? with
          | none => Except.ok true
          | some entry =>
            if api.verifySignature entry = false then
              Except.error RegistryModificationError.SignatureVerificationFailed
            else if permittedAt vr resultIndex = false then
              Except.error RegistryModificationError.PermissionDenied
            else Except.ok true) ∧
    (updateHead api resultIndex r).1
        = resultFor api (api.validateEntries r.entries) resultIndex r.entries := by
  constructor
  · rw [updateHeadWith_result]; rfl
  · exact updateHeadWith_result api _ resultIndex r

/-! ## Missing validation results (C19) -/

theorem replayHead_unpermitted (api : Api) (vr : List Bool) (xs : List RegistryEntry) :
    ∀ (n : Nat) (h : HeadState),
      (∀ j, j < xs.length → permittedAt vr (n + j) = false) →
      replayHead api vr xs n h = h := by
  induction xs with
  | nil => intro n h _; rfl
  | cons x xs ih =>
    intro n h hperm
    have h0 : permittedAt vr n = false := by simpa using hperm 0 (by simp)
    simp only [replayHead, stepHead, h0, Bool.false_and, Bool.false_eq_true, if_false]
    apply ih
    intro j hj
    have := hperm (j + 1) (by simp; omega)
    rw [show n + 1 + j = n + (j + 1) by omega]
    exact this

/-- C19: whatever the number of validation results, `updateHead` treats every index at
or beyond that number as not permitted; the head state is the one of the log cut off at
the number of results, so the entries beyond it have no effect; and `hashChain` still
has one element for every entry of the log. -/
theorem missing_results_fail_closed (api : Api) (vr : List Bool) (k : Nat) (r : Registry) :
    (∀ i, vr.length ≤ i → permittedAt vr i = false) ∧
    (updateHeadWith api vr k r).2.headState
      = (updateHeadWith api vr k { r with entries := r.entries.take vr.length }).2.headState ∧
    (updateHeadWith api vr k r).2.hashChain.length = r.entries.length := by
  have hperm : ∀ i, vr.length ≤ i → permittedAt vr i = false := by
    intro i hi
    rw [permittedAt_eq, List.getElem?_eq_none hi]
    rfl
  refine ⟨hperm, ?_, ?_⟩
  · rw [updateHeadWith_headState, updateHeadWith_headState]
    simp only []
    conv_lhs => rw [← List.take_append_drop vr.length r.entries]
    rw [replayHead_append]
    apply replayHead_unpermitted
    intro j hj
    apply hperm
    simp only [List.length_drop] at hj
    simp only [List.length_take]
    omega
  · rw [updateHeadWith_hashChain, chainFrom_length]

/-! ## The frame of `addEntry` (C12) -/

theorem resultFor_ne_alreadyPresent (api : Api) (vr : List Bool) (k : Nat)
    (es : List RegistryEntry) :
    resultFor api vr k es ≠ Except.error RegistryModificationError.AlreadyPresent := by
  unfold resultFor
  split
  · simp
  · split_ifs <;> simp

theorem addEntry_of_insertAt (api : Api) (e : RegistryEntry) (r : Registry) (idx : Nat)
    (b : Bool)
    (h : addEntryScan e r.entries r.entries.length (Nat.le_refl _) r.entries.length
      = ScanOutcome.insertAt idx b) :
    (addEntry api e r).1 = (if b then (insertAt api e r idx).1 else Except.ok true) ∧
    (addEntry api e r).2 = (insertAt api e r idx).2 := by
  unfold addEntry
  split
  · next idx' h' =>
    rw [h] at h'
    injection h' with h1 h2
    subst h1 h2
    exact ⟨rfl, rfl⟩
  · next idx' h' =>
    rw [h] at h'
    injection h' with h1 h2
    subst h1 h2
    exact ⟨rfl, rfl⟩
  · next h' => rw [h] at h'; exact absurd h' (by simp)

/-- C12: for every registry and entry `E`, `addEntry(E)` either returns `AlreadyPresent`
and leaves the registry (entries, hashChain, headState) as it was, or returns something
else and leaves a log that is the old log, split at one index, with `E` put in between:
one entry longer, every previous entry kept, in the same order. The validity of `E`
plays no part. -/
theorem addEntry_frame (api : Api) (e : RegistryEntry) (r : Registry) :
    addEntry api e r = (Except.error RegistryModificationError.AlreadyPresent, r) ∨
    ((addEntry api e r).1 ≠ Except.error RegistryModificationError.AlreadyPresent ∧
      (addEntry api e r).2.entries.length = r.entries.length + 1 ∧
      ∃ pre suf, r.entries = pre ++ suf ∧ (addEntry api e r).2.entries = pre ++ e :: suf) := by
  cases hscan : addEntryScan e r.entries r.entries.length (Nat.le_refl _) r.entries.length with
  | alreadyPresent => exact Or.inl (addEntry_of_alreadyPresent api e r hscan)
  | insertAt idx b =>
    right
    obtain ⟨pre, suf, hes, hidx, -⟩ := addEntryScan_spec e r.entries idx b hscan
    obtain ⟨hres, hreg⟩ := addEntry_of_insertAt api e r idx b hscan
    have hnew : (addEntry api e r).2.entries = pre ++ e :: suf := by
      rw [hreg, insertAt_entries, hes, hidx, List.take_left, List.drop_left]
    refine ⟨?_, ?_, pre, suf, hes, hnew⟩
    · rw [hres]
      cases b with
      | false => simp
      | true =>
        simp only [if_true, insertAt, updateHead]
        rw [updateHeadWith_result]
        exact resultFor_ne_alreadyPresent api _ _ _
    · rw [hnew, hes]
      simp only [List.length_append, List.length_cons]
      omega

/-! ## The invariant of orphan-free insertion (C20) -/

/-- C20, as stated, fails: the entries `A` (uuid 5, root), `Z` (uuid `Empty`, child of
`A`) and `B` (uuid 3, root) have distinct uuids and resolvable parents, yet `addEntry`
puts `B` behind `Z`, whose uuid it takes for the parent of `B`: the log is `[A, Z, B]`
with the roots `A` and `B` in descending uuid order. -/
theorem orphan_free_order_fails_with_empty_uuid :
    ¬ (∀ (api : Api) (r : Registry), DistinctOrphanFreeReachable api r →
        (∀ (i : Nat) (e : RegistryEntry), r.entries[i]? = some e →
          e.parentUUID = UUID.Empty ∨
            ∃ j p, j < i ∧ r.entries[j]? = some p ∧ p.uuid = e.parentUUID) ∧
        (∀ (i j : Nat) (a b : RegistryEntry), r.entries[i]? = some a →
          r.entries[j]? = some b → i < j → a.parentUUID = b.parentUUID → a.uuid < b.uuid)) := by
  intro h
  have hr : DistinctOrphanFreeReachable Api.trustAll
      (addEntry Api.trustAll (mkUpsert 3 0 "k" [3])
        (addEntry Api.trustAll (mkUpsert 0 5 "k" [2])
          (addEntry Api.trustAll (mkUpsert 5 0 "k" [1]) Registry.empty).2).2).2 :=
    DistinctOrphanFreeReachable.add _ _
      (DistinctOrphanFreeReachable.add _ _
        (DistinctOrphanFreeReachable.add _ _ DistinctOrphanFreeReachable.empty
          (Or.inl rfl) (by decide))
        (Or.inr ⟨mkUpsert 5 0 "k" [1], by decide, rfl⟩) (by decide))
      (Or.inl rfl) (by decide)
  have := (h _ _ hr).2 0 2 (mkUpsert 5 0 "k" [1]) (mkUpsert 3 0 "k" [3]) (by decide)
    (by decide) (by decide) rfl
  exact absurd this (by decide)

/-- C20, amended: under orphan-free insertion in which, starting from the empty
registry, every entry passed to `addEntry` has a uuid that is not Empty and differs from
the uuids in the log and a parentUUID that is Empty or the uuid of an entry already in
the log, every non-root entry of the log appears after its parent and entries sharing a
parentUUID appear in strictly ascending uuid order. -/
theorem orphan_free_insertion_invariant (api : Api) (r : Registry)
    (h : FreshOrphanFreeReachable api r) :
    (∀ (i : Nat) (e : RegistryEntry), r.entries[i]? = some e →
      e.parentUUID = UUID.Empty ∨
        ∃ j p, j < i ∧ r.entries[j]? = some p ∧ p.uuid = e.parentUUID) ∧
    (∀ (i j : Nat) (a b : RegistryEntry), r.entries[i]? = some a →
      r.entries[j]? = some b → i < j → a.parentUUID = b.parentUUID → a.uuid < b.uuid) := by
  have hwf := h.wellFormed
  constructor
  · intro i e hi
    rcases hwf.parents.getElem? hi with h0 | h1 | h2
    · exact Or.inl h0
    · simp at h1
    · exact Or.inr h2
  · intro i j a b hi hj hij hp
    have hs := hwf.siblings
    unfold SiblingsAscending at hs
    rw [List.pairwise_iff_getElem] at hs
    obtain ⟨hi', hia⟩ := List.getElem?_eq_some_iff.mp hi
    obtain ⟨hj', hjb⟩ := List.getElem?_eq_some_iff.mp hj
    have := hs i j hi' hj' hij
    rw [hia, hjb] at this
    exact this hp

/-- The amended C20 at the log `[A, X, B]` of the roots `A` (uuid 1) and `B` (uuid 5) and
the child `X` of `A`, inserted as `B`, `A`, `X`. -/
theorem orphan_free_insertion_invariant_witness :
    FreshOrphanFreeReachable Api.trustAll
      (addEntry Api.trustAll (mkUpsert 30 1 "k" [3])
        (addEntry Api.trustAll (mkUpsert 1 0 "k" [2])
          (addEntry Api.trustAll (mkUpsert 5 0 "k" [1]) Registry.empty).2).2).2 ∧
    (addEntry Api.trustAll (mkUpsert 30 1 "k" [3])
        (addEntry Api.trustAll (mkUpsert 1 0 "k" [2])
          (addEntry Api.trustAll (mkUpsert 5 0 "k" [1]) Registry.empty).2).2).2.entries
      = [mkUpsert 1 0 "k" [2], mkUpsert 30 1 "k" [3], mkUpsert 5 0 "k" [1]] ∧
    (mkUpsert 1 0 "k" [2]).uuid < (mkUpsert 5 0 "k" [1]).uuid :=
  have hr : FreshOrphanFreeReachable Api.trustAll
      (addEntry Api.trustAll (mkUpsert 30 1 "k" [3])
        (addEntry Api.trustAll (mkUpsert 1 0 "k" [2])
          (addEntry Api.trustAll (mkUpsert 5 0 "k" [1]) Registry.empty).2).2).2 :=
    FreshOrphanFreeReachable.add _ _
      (FreshOrphanFreeReachable.add _ _
        (FreshOrphanFreeReachable.add _ _ FreshOrphanFreeReachable.empty
          (Or.inl rfl) (by decide) (by decide))
        (Or.inl rfl) (by decide) (by decide))
      (Or.inr ⟨mkUpsert 1 0 "k" [2], by decide, rfl⟩) (by decide) (by decide)
  ⟨hr, by decide,
    (orphan_free_insertion_invariant Api.trustAll _ hr).2 0 2 (mkUpsert 1 0 "k" [2])
      (mkUpsert 5 0 "k" [1]) (by decide) (by decide) (by decide) rfl⟩

/-! ## A new entry lands behind its parent (C21) -/

/-- C21: for every registry and entry `E`, if `addEntry(E)` inserts `E` (it does not
answer `AlreadyPresent`), then `E` stands at an index `idx` of the new log, the other
entries are the old log in its order, and every entry of the old log whose uuid is
`E.parentUUID` keeps its index, which is smaller than `idx`. -/
theorem inserted_entry_lands_behind_parent (api : Api) (e : RegistryEntry) (r : Registry)
    (hins : (addEntry api e r).1 ≠ Except.error RegistryModificationError.AlreadyPresent) :
    ∃ idx, (addEntry api e r).2.entries[idx]? = some e ∧
      (addEntry api e r).2.entries = r.entries.take idx ++ e :: r.entries.drop idx ∧
      ∀ (j : Nat) (p : RegistryEntry), r.entries[j]? = some p → p.uuid = e.parentUUID →
        j < idx ∧ (addEntry api e r).2.entries[j]? = some p := by
  cases hscan : addEntryScan e r.entries r.entries.length (Nat.le_refl _) r.entries.length with
  | alreadyPresent =>
    rw [addEntry_of_alreadyPresent api e r hscan] at hins
    exact absurd rfl hins
  | insertAt idx b =>
    obtain ⟨pre, suf, hes, hidx, -, hsufp, -⟩ := addEntryScan_spec e r.entries idx b hscan
    have hreg := (addEntry_of_insertAt api e r idx b hscan).2
    have hnew : (addEntry api e r).2.entries = r.entries.take idx ++ e :: r.entries.drop idx := by
      rw [hreg, insertAt_entries]
    have hnew' : (addEntry api e r).2.entries = pre ++ e :: suf := by
      rw [hnew, hes, hidx, List.take_left, List.drop_left]
    refine ⟨idx, ?_, hnew, ?_⟩
    · rw [hnew', hidx, List.getElem?_append_right (Nat.le_refl _)]
      simp
    · intro j p hj hp
      have hlt : j < pre.length := by
        by_contra hge
        rw [hes, List.getElem?_append_right (Nat.le_of_not_lt hge)] at hj
        exact hsufp p (List.getElem?_mem hj) hp
      refine ⟨hidx ▸ hlt, ?_⟩
      rw [hes, List.getElem?_append_left hlt] at hj
      rw [hnew', List.getElem?_append_left hlt]
      exact hj

/-- C21 at the log `[A, X, B]` (roots `A`, `B`, and `X` a child of `A`) and the new child
`Y` of `A`: `Y` goes to index 3, its parent `A` stays at index 0. -/
theorem inserted_entry_lands_behind_parent_witness :
    (addEntry Api.trustAll (mkUpsert 40 1 "k" [4])
        ⟨[mkUpsert 1 0 "k" [1], mkUpsert 30 1 "k" [2], mkUpsert 5 0 "k" [3]], [], []⟩).1
      ≠ Except.error RegistryModificationError.AlreadyPresent ∧
    ∃ idx,
      (addEntry Api.trustAll (mkUpsert 40 1 "k" [4])
        ⟨[mkUpsert 1 0 "k" [1], mkUpsert 30 1 "k" [2], mkUpsert 5 0 "k" [3]], [], []⟩).2.entries[idx]?
        = some (mkUpsert 40 1 "k" [4]) ∧
      (addEntry Api.trustAll (mkUpsert 40 1 "k" [4])
        ⟨[mkUpsert 1 0 "k" [1], mkUpsert 30 1 "k" [2], mkUpsert 5 0 "k" [3]], [], []⟩).2.entries
        = ([mkUpsert 1 0 "k" [1], mkUpsert 30 1 "k" [2], mkUpsert 5 0 "k" [3]] :
            List RegistryEntry).take idx ++ mkUpsert 40 1 "k" [4] ::
          ([mkUpsert 1 0 "k" [1], mkUpsert 30 1 "k" [2], mkUpsert 5 0 "k" [3]] :
            List RegistryEntry).drop idx ∧
      ∀ (j : Nat) (p : RegistryEntry),
        ([mkUpsert 1 0 "k" [1], mkUpsert 30 1 "k" [2], mkUpsert 5 0 "k" [3]] :
          List RegistryEntry)[j]? = some p →
        p.uuid = (mkUpsert 40 1 "k" [4]).parentUUID →
        j < idx ∧
          (addEntry Api.trustAll (mkUpsert 40 1 "k" [4])
            ⟨[mkUpsert 1 0 "k" [1], mkUpsert 30 1 "k" [2], mkUpsert 5 0 "k" [3]], [],
              []⟩).2.entries[j]? = some p :=
  have hins : (addEntry Api.trustAll (mkUpsert 40 1 "k" [4])
      ⟨[mkUpsert 1 0 "k" [1], mkUpsert 30 1 "k" [2], mkUpsert 5 0 "k" [3]], [], []⟩).1
      ≠ Except.error RegistryModificationError.AlreadyPresent := by
    intro h
    have hok : (addEntry Api.trustAll (mkUpsert 40 1 "k" [4])
        ⟨[mkUpsert 1 0 "k" [1], mkUpsert 30 1 "k" [2], mkUpsert 5 0 "k" [3]], [], []⟩).1
        = Except.ok true := rfl
    rw [hok] at h
    cases h
  ⟨hins, inserted_entry_lands_behind_parent Api.trustAll (mkUpsert 40 1 "k" [4])
    ⟨[mkUpsert 1 0 "k" [1], mkUpsert 30 1 "k" [2], mkUpsert 5 0 "k" [3]], [], []⟩ hins⟩

end ProtoMesh
